import Mathlib

/-!
FilesInMyDevice: directory listing, natural sort key and path normalisation.

A shallow embedding of `main.go`.

* A Go `string` is a sequence of bytes; it is modelled as a `List Nat` of byte
  values (`'/'` is 47, `'.'` is 46, `'0'`..`'9'` are 48..57).  String comparison
  `<` in Go is byte-wise lexicographic; it is `strLess` below.
* `uint64` arithmetic is `Nat` arithmetic reduced modulo `2^64`.
* A panic of the Go program is an `Except.error`.
* The standard library functions the program calls (`filepath.Ext`,
  `strconv.ParseUint`, `binary.BigEndian.PutUint64`, `strings.Split`,
  `strings.Join`, `sort.Slice`) are embedded from their Go definitions or taken
  through their documented contract (`sort.Slice`).
-/

namespace FilesInMyDevice

/-! ## Strings -/

/-- A Go string: a sequence of bytes. -/
abbrev GoString := List Nat

/-- The bytes of an ASCII literal. -/
def ascii (s : String) : GoString := s.toList.map Char.toNat

/-- Go's `<` on strings: byte-wise lexicographic comparison, a proper prefix
being smaller. -/
def strLess : GoString → GoString → Bool
  | [], [] => false
  | [], _ :: _ => true
  | _ :: _, [] => false
  | a :: as, b :: bs =>
    if a < b then true else if b < a then false else strLess as bs

/-! ## `sortName` (main.go, lines 131-154) -/

/-- The loop of `filepath.Ext` on a Unix system, run over the reversed path:
it walks back from the last byte, stops with the empty extension at a path
separator `'/'`, and returns `path[i:]` at the first `'.'` it meets.  `acc` holds
the bytes already passed, in their original order. -/
def extFrom : List Nat → GoString → GoString
  | [], _ => []
  | c :: rest, acc =>
    if c = 47 then [] else if c = 46 then c :: acc else extFrom rest (c :: acc)

/-- Go's `filepath.Ext(path)`. -/
def Ext (path : GoString) : GoString := extFrom path.reverse []

/-- The backward scan `for ; i >= 0; i--` of `sortName` over the reversed
`name`: the number of bytes passed before the first byte outside `'0'..'9'`. -/
def digitRun : List Nat → Nat
  | [] => 0
  | c :: rest => if 48 > c ∨ c > 57 then 0 else digitRun rest + 1

/-- The constant `cutoff = maxUint64/10 + 1` of `strconv.ParseUint` in base 10. -/
def cutoff : Nat := (2 ^ 64 - 1) / 10 + 1

/-- The constant `maxVal = 1<<64 - 1` of `strconv.ParseUint` for bit size 64. -/
def maxVal : Nat := 2 ^ 64 - 1

/-- The digit loop of `strconv.ParseUint(s, 10, 64)`; `none` when Go returns a
non-nil error (a byte that is no decimal digit, or a value out of range). -/
def parseLoop : List Nat → Nat → Option Nat
  | [], n => some n
  | c :: cs, n =>
    if 48 ≤ c ∧ c ≤ 57 then
      let d := c - 48
      if n ≥ cutoff then none
      else
        let n10 := (n * 10) % 2 ^ 64
        let n1 := (n10 + d) % 2 ^ 64
        if n1 < n10 ∨ n1 > maxVal then none else parseLoop cs n1
    else none

/-- Go's `strconv.ParseUint(s, 10, 64)`: `some u64` when `err == nil`. -/
def ParseUint (s : GoString) : Option Nat :=
  if s = [] then none else parseLoop s 0

/-- Go's `binary.BigEndian.PutUint64` into a fresh 8-byte slice. -/
def PutUint64 (v : Nat) : GoString :=
  [v / 2 ^ 56 % 256, v / 2 ^ 48 % 256, v / 2 ^ 40 % 256, v / 2 ^ 32 % 256,
   v / 2 ^ 24 % 256, v / 2 ^ 16 % 256, v / 2 ^ 8 % 256, v % 256]

/-- The slice `make([]byte, 64/8)`: eight zero bytes. -/
def zeroField : GoString := List.replicate 8 0

/-- The variable `name` of `sortName`: `filename[:len(filename)-len(ext)]`. -/
def baseName (filename : GoString) : GoString :=
  filename.take (filename.length - (Ext filename).length)

/-- The index `i` of `sortName` after the scan and `i++`: where the trailing
digit run of `name` starts. -/
def splitIndex (filename : GoString) : Nat :=
  (baseName filename).length - digitRun (baseName filename).reverse

/-- The prefix `name[:i]` of `sortName`. -/
def namePrefix (filename : GoString) : GoString :=
  (baseName filename).take (splitIndex filename)

/-- The digit run `s64 = name[i:]` of `sortName`. -/
def numericSuffix (filename : GoString) : GoString :=
  (baseName filename).drop (splitIndex filename)

/-- The slice `b64` of `sortName` when the function returns. -/
def numericField (filename : GoString) : GoString :=
  let s64 := numericSuffix filename
  if s64.length > 0 then
    match ParseUint s64 with
    | some u64 => PutUint64 ((u64 + 1) % 2 ^ 64)
    | none => zeroField
  else zeroField

/-- The function `sortName`: `name[:i] + string(b64) + ext`. -/
def sortName (filename : GoString) : GoString :=
  namePrefix filename ++ numericField filename ++ Ext filename

/-- The decimal value of a run of ASCII digits. -/
def digitsValue (s : GoString) : Nat :=
  s.foldl (fun n c => n * 10 + (c - 48)) 0


/-! ## `QueryFiles` (main.go, lines 76-129) -/

/-- The ways the program panics. -/
inductive Panic where
  /-- The call `log.Panicln(err)` on the error of `os.ReadDir`. -/
  | readDir (err : GoString)
  /-- An index expression out of range. -/
  | indexOutOfRange
  /-- A slice expression with bounds out of range. -/
  | sliceBounds
  /-- A method call on a nil value: `info.Size()` after `file.Info()` failed. -/
  | nilDereference
  deriving DecidableEq

deriving instance DecidableEq for Except

/-- What the program reads of an `os.DirEntry`: `Name()`, `IsDir()` and the
result of `Info()`.  The field `info` is `some size`, with `size` the `Size()` of
the returned `FileInfo` in bytes, when `Info()` returns no error; it is `none`
when `Info()` returns an error (the file was removed after the directory was
read, or the directory cannot be searched), the returned `FileInfo` then being
nil. -/
structure DirEntry where
  name : GoString
  isDir : Bool
  info : Option Nat
  deriving DecidableEq

/-- The struct `File`; the field `Type` is spelled `Typ`. -/
structure File where
  Name : GoString
  Typ : Int
  Address : GoString
  Size : GoString
  deriving DecidableEq

/-- The package variables the listing reads. -/
structure Config where
  base_path : GoString
  base_url : GoString
  base_download_url : GoString
  deriving DecidableEq

/-- The decimal digits of a natural number, as ASCII bytes. -/
def decimal (n : Nat) : GoString := (Nat.toDigits 10 n).map Char.toNat

/-- The number of low bits a 64-bit integer loses when converted to `float64`
(53 bits of mantissa): the least `e` with `n / 2^e < 2^53`, searched over `fuel`
steps. -/
def lostBits : Nat → Nat → Nat
  | 0, _ => 0
  | fuel + 1, n => if n < 2 ^ 53 then 0 else lostBits fuel (n / 2) + 1

/-- The conversion `float64(size)` of a non-negative `int64`, as the exact value
of the resulting float: round to nearest, ties to even. -/
def toFloat64 (n : Nat) : Nat :=
  let e := lostBits 11 n
  let q := n / 2 ^ e
  let r := n % 2 ^ e
  if 2 * r > 2 ^ e ∨ (2 * r = 2 ^ e ∧ q % 2 = 1) then (q + 1) * 2 ^ e else q * 2 ^ e

/-- The verb `%.2f` applied to the float `num / 2^k` (the division by a power of
two is exact): the decimal expansion rounded to two places, ties to even. -/
def fmtFixed2 (num k : Nat) : GoString :=
  let q := num * 100 / 2 ^ k
  let r := num * 100 % 2 ^ k
  let h := if 2 * r > 2 ^ k ∨ (2 * r = 2 ^ k ∧ q % 2 = 1) then q + 1 else q
  decimal (h / 100) ++ [46, 48 + h % 100 / 10, 48 + h % 10]

/-- The `switch` on `size` of `QueryFiles`, lines 106-115. -/
def sizeLabel (size : Nat) : GoString :=
  if size ≥ 2 ^ 30 then ascii "[" ++ fmtFixed2 (toFloat64 size) 30 ++ ascii "G]"
  else if size ≥ 2 ^ 20 then ascii "[" ++ fmtFixed2 (toFloat64 size) 20 ++ ascii "MB]"
  else if size ≥ 2 ^ 10 then ascii "[" ++ fmtFixed2 (toFloat64 size) 10 ++ ascii "KB]"
  else ascii "[" ++ decimal (toFloat64 size) ++ ascii "B]"

/-- The entry `nFile` built in the loop body, lines 95-116.  For a directory
`Info()` is not called.  For any other entry line 104 drops the error of
`file.Info()` and line 105 calls `info.Size()`, which panics when `info` is
nil. -/
def newFile (cfg : Config) (path : GoString) (file : DirEntry) : Except Panic File :=
  if file.isDir then
    .ok (File.mk (file.name ++ ascii "/") 0
      (cfg.base_url ++ ascii "?path=" ++ path ++ file.name ++ ascii "/") [])
  else
    match file.info with
    | none => .error .nilDereference
    | some size =>
      .ok (File.mk file.name 1 (cfg.base_download_url ++ path ++ file.name) (sizeLabel size))

/-- The loop `for i := range files`, lines 90-118, with `res` the slice built so
far: `file.Name()[0]` panics on an empty name, an entry starting with `'.'` is
skipped, every other entry is built and appended. -/
def rangeFiles (cfg : Config) (path : GoString) :
    List DirEntry → List File → Except Panic (List File)
  | [], res => .ok res
  | file :: rest, res =>
    match file.name with
    | [] => .error .indexOutOfRange
    | c :: _ =>
      if c = 46 then rangeFiles cfg path rest res
      else
        match newFile cfg path file with
        | .error p => .error p
        | .ok nFile => rangeFiles cfg path rest (res ++ [nFile])

/-- The test `file.Name()[0] == '.'` on an entry with a non-empty name. -/
def hidden (file : DirEntry) : Bool := file.name.head? == some 46

/-- The function passed to `sort.Slice`, lines 119-127, on the two elements
`res[i]` and `res[j]`. -/
def less (mi mj : File) : Bool :=
  if mi.Typ = mj.Typ then strLess (sortName mi.Name) (sortName mj.Name)
  else decide (mi.Typ < mj.Typ)

/-- The requirement of `sort.Slice` on its `less` function: a strict weak
ordering. -/
structure StrictWeakOrder {α : Type} (lt : α → α → Bool) : Prop where
  irrefl : ∀ a, lt a a = false
  trans : ∀ a b c, lt a b = true → lt b c = true → lt a c = true
  incomp_trans : ∀ a b c, lt a b = false → lt b a = false → lt b c = false →
    lt c b = false → lt a c = false ∧ lt c a = false

/-- The contract of `sort.Slice`: the slice is rearranged by swaps, so the
result is a permutation of the input, and for a strict weak ordering the result
is sorted: no element is less than one that precedes it. -/
structure SortSliceContract
    (sortSlice : (File → File → Bool) → List File → List File) : Prop where
  perm : ∀ lt xs, (sortSlice lt xs).Perm xs
  sorted : ∀ lt xs, StrictWeakOrder lt →
    (sortSlice lt xs).Pairwise (fun a b => lt b a = false)

/-- The inner loop of Go's `insertionSortLessFunc`,
`for j := i; j > a && less(j, j-1); j-- { swap(j, j-1) }`: the element `x` moves
left past every element it is less than.  The sorted part is held reversed. -/
def sinkLeft {α : Type} (lt : α → α → Bool) (x : α) : List α → List α
  | [] => [x]
  | y :: ys => if lt x y then y :: sinkLeft lt x ys else x :: y :: ys

/-- The outer loop of `insertionSortLessFunc`: `sorted` is the part before `i`,
reversed. -/
def insertionLoop {α : Type} (lt : α → α → Bool) : List α → List α → List α
  | sorted, [] => sorted.reverse
  | sorted, x :: xs => insertionLoop lt (sinkLeft lt x sorted) xs

/-- Go's `insertionSortLessFunc`, the algorithm `sort.Slice` runs on slices of
at most 12 elements. -/
def insertionSortLessFunc {α : Type} (lt : α → α → Bool) (xs : List α) : List α :=
  insertionLoop lt [] xs

/-- The function `QueryFiles`.  `ReadDir` stands for `os.ReadDir` on the file
system at hand, returning the entries and the error (`none` for `nil`);
`sortSlice` stands for `sort.Slice`. -/
def QueryFiles (sortSlice : (File → File → Bool) → List File → List File)
    (ReadDir : GoString → List DirEntry × Option GoString)
    (cfg : Config) (path : GoString) : Except Panic (List File) :=
  match ReadDir (cfg.base_path ++ path) with
  | (_, some err) => .error (.readDir err)
  | (files, none) =>
    match rangeFiles cfg path files [] with
    | .error p => .error p
    | .ok res => .ok (sortSlice less res)

/-! ## Path normalisation in `Query` (main.go, lines 54-67) -/

/-- Go's `strings.Split(s, "/")`. -/
def Split : GoString → List GoString
  | [] => [[]]
  | c :: cs =>
    if c = 47 then [] :: Split cs
    else
      match Split cs with
      | [] => [[c]]
      | seg :: segs => (c :: seg) :: segs

/-- Go's `strings.Join(elems, "/")`. -/
def Join : List GoString → GoString
  | [] => []
  | [a] => a
  | a :: b :: rest => a ++ 47 :: Join (b :: rest)

/-- The index expression `s[i]` with its run-time bounds check. -/
def index {α : Type} (s : List α) (i : Int) : Except Panic α :=
  if 0 ≤ i then
    match s.get? i.toNat with
    | some x => .ok x
    | none => .error .indexOutOfRange
  else .error .indexOutOfRange

/-- The slice expression `s[:j]` with its run-time bounds check. -/
def sliceTo {α : Type} (s : List α) (j : Int) : Except Panic (List α) :=
  if 0 ≤ j ∧ j ≤ s.length then .ok (s.take j.toNat) else .error .sliceBounds

/-- The segment `".."`. -/
def dotdot : GoString := [46, 46]

/-- Lines 55-61: the empty path becomes `/`, and a path that does not end in
`'/'` gets one appended. -/
def withSlash (path : GoString) : Except Panic GoString :=
  let path := if path.length = 0 then path ++ ascii "/" else path
  if path.length > 0 then
    match index path ((path.length : Int) - 1) with
    | .error p => .error p
    | .ok last => if last ≠ 47 then .ok (path ++ ascii "/") else .ok path
  else .ok path

/-- Lines 62-66, run on a non-empty path: when the split has more than two
segments and the one before the last is `..`, the last three segments are
dropped and `/` is appended. -/
def stripParent (path : GoString) : Except Panic GoString :=
  let paths := Split path
  if paths.length > 2 then
    match index paths ((paths.length : Int) - 2) with
    | .error p => .error p
    | .ok seg =>
      if seg = dotdot then
        match sliceTo paths ((paths.length : Int) - 3) with
        | .error p => .error p
        | .ok kept => .ok (Join kept ++ ascii "/")
      else .ok path
  else .ok path

/-- The value of `path` that `Query` passes to `QueryFiles`, lines 54-67.  The
test `len(path) > 0` of line 58 guards both steps; a path that passes it is still
non-empty after `withSlash`. -/
def normalizePath (path : GoString) : Except Panic GoString :=
  match withSlash path with
  | .error p => .error p
  | .ok path => if path.length > 0 then stripParent path else .ok path

/-! ## A sample directory -/

/-- A directory with a hidden entry, three sub-directories and three files, in
the order `os.ReadDir` returns them (sorted by file name). -/
def sampleDir : List DirEntry :=
  [DirEntry.mk (ascii ".git") true (some 4096),
   DirEntry.mk (ascii "a10.txt") false (some 1536),
   DirEntry.mk (ascii "a9.txt") false (some 512),
   DirEntry.mk (ascii "dir10") true (some 4096),
   DirEntry.mk (ascii "dir9") true (some 4096),
   DirEntry.mk (ascii "notes") true (some 4096),
   DirEntry.mk (ascii "z.txt") false (some 1572864)]

/-- A file system in which every directory reads as `sampleDir`. -/
def sampleReadDir : GoString → List DirEntry × Option GoString :=
  fun _ => (sampleDir, none)

/-- A directory holding the two sub-directories `dir9` and `dir10`. -/
def twoDirs : List DirEntry :=
  [DirEntry.mk (ascii "dir10") true (some 4096), DirEntry.mk (ascii "dir9") true (some 4096)]

/-- A sample configuration. -/
def sampleConfig : Config :=
  Config.mk (ascii "/srv/files") (ascii "http://host:7005") (ascii "http://host:7006")


/-! ## Definitions following the wording of the specification -/

/-- The numeral with exactly two decimals that stands for `h` hundredths. -/
def hundredths (h : Nat) : GoString :=
  decimal (h / 100) ++ [46, 48 + h % 100 / 10, 48 + h % 10]

/-- That `h` hundredths is a rounding of the exact rational `n / 2^k` to two
decimals: the two differ by at most half a hundredth. -/
def isRounding (h n k : Nat) : Prop :=
  2 * (100 * n) ≤ 2 * (h * 2 ^ k) + 2 ^ k ∧ 2 * (h * 2 ^ k) ≤ 2 * (100 * n) + 2 ^ k

instance (h n k : Nat) : Decidable (isRounding h n k) := by
  unfold isRounding
  exact inferInstance

/-- The path `"/" ++ s1 ++ "/" ++ ... ++ sn ++ "/"` of the directory reached from
the root through the segments `s1 .. sn`; it is `"/"` for no segment. -/
def dirPath (segs : List GoString) : GoString :=
  47 :: (segs.map (fun s => s ++ [47])).flatten

/-- The suffix of a file name that starts at its last `'.'`; empty when the name
has no `'.'`. -/
def lastDotSuffix : GoString → GoString
  | [] => []
  | c :: cs =>
    match lastDotSuffix cs with
    | [] => if c = 46 then c :: cs else []
    | d :: ds => d :: ds

/-- A name with its maximal trailing run of ASCII digits removed. -/
def stripTrailingDigits (name : GoString) : GoString :=
  (name.reverse.dropWhile (fun c => decide (48 ≤ c ∧ c ≤ 57))).reverse

/-- A digit run that is a decimal numeral without a leading zero: the run `0`
itself, or a run that does not start with `'0'` (the empty run included). -/
def noLeadingZero (d : GoString) : Prop := d = [48] ∨ d.head? ≠ some 48

instance (d : GoString) : Decidable (noLeadingZero d) := by
  unfold noLeadingZero
  exact inferInstance

/-- A sample directory entry. -/
def sampleDirEntry : File := File.mk (ascii "notes/") 0 [] []

/-- A sample file entry. -/
def sampleFile9 : File := File.mk (ascii "a9.txt") 1 [] (ascii "[512B]")

/-- A sample file entry. -/
def sampleFile10 : File := File.mk (ascii "a10.txt") 1 [] (ascii "[1.50KB]")

/-- A file system whose directories are read without error and hold the
directory `notes` and the file `gone.txt`, on which `Info()` fails. -/
def infoFailReadDir : GoString → List DirEntry × Option GoString :=
  fun _ => ([DirEntry.mk (ascii "gone.txt") false none,
             DirEntry.mk (ascii "notes") true (some 4096)], none)

/-- The segments of an input path once its closing `'/'` is ensured, without the
empty segment after that `'/'`. -/
def namedSegments (path : GoString) : List GoString :=
  match withSlash path with
  | .ok p => (Split p).dropLast
  | .error _ => []

/-- The segments left when a final `..` is taken away together with the segment
before it; a list that does not end in a segment followed by `..` is left as it
is. -/
def withoutFinalHop (segs : List GoString) : List GoString :=
  match segs.reverse with
  | l :: _ :: zs => if l = dotdot then zs.reverse else segs
  | _ => segs

/-! ## Byte-wise comparison -/

theorem strLess_irrefl (a : GoString) : strLess a a = false := by
  induction a with
  | nil => rfl
  | cons x xs ih => simp [strLess, ih]

theorem strLess_asymm : ∀ (a b : GoString), strLess a b = true → strLess b a = false
  | [], [], _ => rfl
  | [], _ :: _, _ => rfl
  | _ :: _, [], h => by simp [strLess] at h
  | x :: xs, y :: ys, h => by
    simp only [strLess] at h ⊢
    split_ifs at h ⊢
    all_goals first | omega | rfl | exact strLess_asymm xs ys h

theorem strLess_trans : ∀ (a b c : GoString),
    strLess a b = true → strLess b c = true → strLess a c = true
  | [], [], _, h, _ => by simp [strLess] at h
  | [], _ :: _, [], _, h => by simp [strLess] at h
  | [], _ :: _, _ :: _, _, _ => rfl
  | _ :: _, [], _, h, _ => by simp [strLess] at h
  | _ :: _, _ :: _, [], _, h => by simp [strLess] at h
  | x :: xs, y :: ys, z :: zs, h1, h2 => by
    simp only [strLess] at h1 h2 ⊢
    split_ifs at h1 h2 ⊢
    all_goals first | omega | rfl | exact strLess_trans xs ys zs h1 h2

theorem strLess_total : ∀ (a b : GoString),
    strLess a b = false → strLess b a = false → a = b
  | [], [], _, _ => rfl
  | [], _ :: _, h, _ => by simp [strLess] at h
  | _ :: _, [], _, h => by simp [strLess] at h
  | x :: xs, y :: ys, h1, h2 => by
    simp only [strLess] at h1 h2
    split_ifs at h1 h2
    have hxy : x = y := by omega
    rw [hxy, strLess_total xs ys h1 h2]

theorem strLess_append_left (p a b : GoString) :
    strLess (p ++ a) (p ++ b) = strLess a b := by
  induction p with
  | nil => rfl
  | cons x xs ih => simp [strLess, ih]

theorem strLess_append_of_length_eq : ∀ (a b x y : GoString),
    a.length = b.length → a ≠ b → strLess (a ++ x) (b ++ y) = strLess a b
  | [], [], _, _, _, h => absurd rfl h
  | [], _ :: _, _, _, h, _ => by simp at h
  | _ :: _, [], _, _, h, _ => by simp at h
  | c :: cs, d :: ds, x, y, hl, hne => by
    simp only [List.cons_append, strLess]
    split_ifs with h1 h2
    · rfl
    · rfl
    · have hcd : c = d := by omega
      subst hcd
      exact strLess_append_of_length_eq cs ds x y (by simpa using hl) (by simpa using hne)

/-! ## The numeric field -/

theorem PutUint64_length (v : Nat) : (PutUint64 v).length = 8 := rfl

theorem zeroField_length : zeroField.length = 8 := rfl

theorem PutUint64_zero : PutUint64 0 = zeroField := by decide

theorem strLess_cons_of_le (a b : Nat) (as bs : GoString) (hab : a ≤ b)
    (h : a = b → strLess as bs = true) : strLess (a :: as) (b :: bs) = true := by
  simp only [strLess]
  split_ifs with h1 h2
  · rfl
  · omega
  · exact h (by omega)

theorem PutUint64_lt (n m : Nat) (h : n < m) (hm : m < 2 ^ 64) :
    strLess (PutUint64 n) (PutUint64 m) = true := by
  unfold PutUint64
  refine strLess_cons_of_le _ _ _ _ (by omega) (fun h1 => ?_)
  refine strLess_cons_of_le _ _ _ _ (by omega) (fun h2 => ?_)
  refine strLess_cons_of_le _ _ _ _ (by omega) (fun h3 => ?_)
  refine strLess_cons_of_le _ _ _ _ (by omega) (fun h4 => ?_)
  refine strLess_cons_of_le _ _ _ _ (by omega) (fun h5 => ?_)
  refine strLess_cons_of_le _ _ _ _ (by omega) (fun h6 => ?_)
  refine strLess_cons_of_le _ _ _ _ (by omega) (fun h7 => ?_)
  refine strLess_cons_of_le _ _ _ _ (by omega) (fun h8 => ?_)
  omega

theorem PutUint64_ne_zero (v : Nat) (h0 : 0 < v) (hv : v < 2 ^ 64) :
    PutUint64 v ≠ zeroField := by
  intro h
  have := PutUint64_lt 0 v h0 hv
  rw [PutUint64_zero, h, strLess_irrefl] at this
  exact absurd this (by simp)


/-! ## `strconv.ParseUint` on a run of digits -/

theorem digits_foldl_ge (s : GoString) (n : Nat) :
    n ≤ s.foldl (fun n c => n * 10 + (c - 48)) n := by
  induction s generalizing n with
  | nil => exact Nat.le_refl _
  | cons c cs ih =>
    simp only [List.foldl_cons]
    exact Nat.le_trans (by omega) (ih _)

theorem parseLoop_eq (s : GoString) (n : Nat) (hs : ∀ c ∈ s, 48 ≤ c ∧ c ≤ 57)
    (hn : n < 2 ^ 64) :
    parseLoop s n =
      if s.foldl (fun n c => n * 10 + (c - 48)) n < 2 ^ 64
      then some (s.foldl (fun n c => n * 10 + (c - 48)) n) else none := by
  induction s generalizing n with
  | nil =>
    simp only [parseLoop, List.foldl_nil]
    rw [if_pos hn]
  | cons c cs ih =>
    have hc := hs c (List.mem_cons_self _ _)
    have hcs : ∀ x ∈ cs, 48 ≤ x ∧ x ≤ 57 := fun x hx => hs x (List.mem_cons_of_mem _ hx)
    have hge := digits_foldl_ge cs (n * 10 + (c - 48))
    simp only [parseLoop, List.foldl_cons, cutoff, maxVal, hc, and_self, if_true]
    by_cases h1 : n ≥ (2 ^ 64 - 1) / 10 + 1
    · rw [if_pos h1, if_neg (by omega)]
    · rw [if_neg h1]
      by_cases h2 : n * 10 + (c - 48) < 2 ^ 64
      · have e1 : n * 10 % 2 ^ 64 = n * 10 := Nat.mod_eq_of_lt (by omega)
        have e2 : (n * 10 + (c - 48)) % 2 ^ 64 = n * 10 + (c - 48) := Nat.mod_eq_of_lt h2
        simp only [e1, e2]
        rw [if_neg (by omega)]
        exact ih _ hcs h2
      · have e1 : n * 10 % 2 ^ 64 = n * 10 := Nat.mod_eq_of_lt (by omega)
        simp only [e1]
        rw [if_pos (by omega), if_neg (by omega)]

theorem ParseUint_eq (s : GoString) (hs : ∀ c ∈ s, 48 ≤ c ∧ c ≤ 57) (hne : s ≠ []) :
    ParseUint s = if digitsValue s < 2 ^ 64 then some (digitsValue s) else none := by
  unfold ParseUint digitsValue
  rw [if_neg hne]
  exact parseLoop_eq s 0 hs (by omega)

/-! ## The trailing digit run -/

theorem digitRun_le (r : List Nat) : digitRun r ≤ r.length := by
  induction r with
  | nil => simp [digitRun]
  | cons c cs ih =>
    simp only [digitRun, List.length_cons]
    split_ifs <;> omega

theorem digitRun_take (r : List Nat) : ∀ c ∈ r.take (digitRun r), 48 ≤ c ∧ c ≤ 57 := by
  induction r with
  | nil => simp [digitRun]
  | cons c cs ih =>
    simp only [digitRun]
    split_ifs with h
    · simp
    · intro x hx
      simp only [List.take_succ_cons, List.mem_cons] at hx
      rcases hx with rfl | hx
      · omega
      · exact ih x hx

theorem digitRun_drop (r : List Nat) : digitRun (r.drop (digitRun r)) = 0 := by
  induction r with
  | nil => simp [digitRun]
  | cons c cs ih =>
    by_cases h : 48 > c ∨ c > 57
    · simp [digitRun, h]
    · simpa [digitRun, h] using ih

theorem digitRun_append (ds rest : List Nat) (hds : ∀ c ∈ ds, 48 ≤ c ∧ c ≤ 57) :
    digitRun (ds ++ rest) = ds.length + digitRun rest := by
  induction ds with
  | nil => simp
  | cons c cs ih =>
    have hc := hds c (List.mem_cons_self _ _)
    have h : ¬ (48 > c ∨ c > 57) := by omega
    simp only [List.cons_append, digitRun, if_neg h, List.length_cons]
    have h2 : digitRun (cs.append rest) = cs.length + digitRun rest :=
      ih (fun x hx => hds x (List.mem_cons_of_mem _ hx))
    omega

theorem numericSuffix_eq (f : GoString) :
    numericSuffix f = ((baseName f).reverse.take (digitRun (baseName f).reverse)).reverse := by
  unfold numericSuffix splitIndex
  rw [List.take_reverse, List.reverse_reverse]

theorem namePrefix_eq (f : GoString) :
    namePrefix f = ((baseName f).reverse.drop (digitRun (baseName f).reverse)).reverse := by
  unfold namePrefix splitIndex
  rw [List.drop_reverse, List.reverse_reverse]

theorem numericSuffix_digits (f : GoString) : ∀ c ∈ numericSuffix f, 48 ≤ c ∧ c ≤ 57 := by
  intro c hc
  rw [numericSuffix_eq, List.mem_reverse] at hc
  exact digitRun_take _ c hc

theorem namePrefix_append_numericSuffix (f : GoString) :
    namePrefix f ++ numericSuffix f = baseName f :=
  List.take_append_drop _ _

theorem digitRun_namePrefix (f : GoString) : digitRun (namePrefix f).reverse = 0 := by
  rw [namePrefix_eq, List.reverse_reverse]
  exact digitRun_drop _

/-- The numeric field when the digit run is non-empty and its value plus one
fits in 64 bits. -/
theorem numericField_of_value (f : GoString) (hne : numericSuffix f ≠ [])
    (hv : digitsValue (numericSuffix f) + 1 < 2 ^ 64) :
    numericField f = PutUint64 (digitsValue (numericSuffix f) + 1) := by
  unfold numericField
  have hlen : (numericSuffix f).length > 0 := List.length_pos.mpr hne
  simp only [hlen, if_true]
  rw [ParseUint_eq _ (numericSuffix_digits f) hne, if_pos (by omega)]
  simp only [Nat.mod_eq_of_lt hv]

theorem numericField_of_empty (f : GoString) (h : numericSuffix f = []) :
    numericField f = zeroField := by
  simp [numericField, h]

theorem numericField_length (f : GoString) : (numericField f).length = 8 := by
  simp only [numericField]
  split_ifs
  · split <;> rfl
  · rfl


/-! ## `filepath.Ext` -/

theorem extFrom_spec (r : List Nat) (acc : GoString) :
    extFrom r acc = [] ∨
    ∃ r1 r2, r = r1 ++ 46 :: r2 ∧ (∀ c ∈ r1, c ≠ 46 ∧ c ≠ 47) ∧
      extFrom r acc = 46 :: (r1.reverse ++ acc) := by
  induction r generalizing acc with
  | nil => left; rfl
  | cons c cs ih =>
    simp only [extFrom]
    by_cases h47 : c = 47
    · left; simp [h47]
    · by_cases h46 : c = 46
      · right
        refine ⟨[], cs, by simp [h46], by simp, by simp [h46]⟩
      · rw [if_neg h47, if_neg h46]
        rcases ih (c :: acc) with h | ⟨r1, r2, h1, h2, h3⟩
        · left; exact h
        · right
          refine ⟨c :: r1, r2, by simp [h1], ?_, by simp [h3]⟩
          intro x hx
          rcases List.mem_cons.mp hx with rfl | hx
          · exact ⟨h46, h47⟩
          · exact h2 x hx

theorem extFrom_append (r1 r2 : List Nat) (acc : GoString)
    (h : ∀ c ∈ r1, c ≠ 46 ∧ c ≠ 47) :
    extFrom (r1 ++ 46 :: r2) acc = 46 :: (r1.reverse ++ acc) := by
  induction r1 generalizing acc with
  | nil => simp [extFrom]
  | cons c cs ih =>
    have hc := h c (List.mem_cons_self _ _)
    have h2 := ih (c :: acc) (fun x hx => h x (List.mem_cons_of_mem _ hx))
    rw [List.cons_append]
    simp only [extFrom, if_neg hc.2, if_neg hc.1]
    rw [h2]
    simp

theorem extFrom_nil_acc (r : List Nat) (acc acc2 : GoString)
    (h : extFrom r acc = []) : extFrom r acc2 = [] := by
  induction r generalizing acc acc2 with
  | nil => rfl
  | cons c cs ih =>
    simp only [extFrom] at h ⊢
    by_cases h47 : c = 47
    · simp [h47]
    · by_cases h46 : c = 46
      · simp [h47, h46] at h
      · rw [if_neg h47, if_neg h46] at h ⊢
        exact ih _ _ h

/-- A non-empty extension starts at a `'.'` and holds no further `'.'` and no
`'/'`; the file name is the base name followed by it. -/
theorem Ext_spec (f : GoString) :
    Ext f = [] ∨ ∃ b t, f = b ++ 46 :: t ∧ (∀ c ∈ t, c ≠ 46 ∧ c ≠ 47) ∧ Ext f = 46 :: t := by
  rcases extFrom_spec f.reverse [] with h | ⟨r1, r2, h1, h2, h3⟩
  · left; exact h
  · right
    refine ⟨r2.reverse, r1.reverse, ?_, ?_, by simpa [Ext] using h3⟩
    · have := congrArg List.reverse h1
      simpa using this
    · intro c hc
      exact h2 c (List.mem_reverse.mp hc)

theorem Ext_append_ext (x t : GoString) (h : ∀ c ∈ t, c ≠ 46 ∧ c ≠ 47) :
    Ext (x ++ 46 :: t) = 46 :: t := by
  unfold Ext
  have : (x ++ 46 :: t).reverse = t.reverse ++ 46 :: x.reverse := by simp
  rw [this, extFrom_append _ _ _ (fun c hc => h c (List.mem_reverse.mp hc))]
  simp

theorem baseName_append_Ext (f : GoString) : baseName f ++ Ext f = f := by
  unfold baseName
  rcases Ext_spec f with h | ⟨b, t, h1, _, h3⟩
  · simp [h]
  · rw [h3]
    conv_lhs => rw [h1]
    conv_rhs => rw [h1]
    rw [List.take_left' (by simp)]

/-- The three parts of `sortName` put the file name back together. -/
theorem split_append (f : GoString) :
    namePrefix f ++ numericSuffix f ++ Ext f = f := by
  rw [namePrefix_append_numericSuffix, baseName_append_Ext]

theorem baseName_of_Ext (b e : GoString) (h : Ext (b ++ e) = e) : baseName (b ++ e) = b := by
  unfold baseName
  rw [h]
  exact List.take_left' (by simp)

/-- The split of `sortName` on a name given as prefix, digit run and extension. -/
theorem split_of_parts (p d e : GoString) (hd : ∀ c ∈ d, 48 ≤ c ∧ c ≤ 57)
    (hp : digitRun p.reverse = 0) (he : Ext (p ++ d ++ e) = e) :
    namePrefix (p ++ d ++ e) = p ∧ numericSuffix (p ++ d ++ e) = d := by
  have hb : baseName (p ++ d ++ e) = p ++ d := baseName_of_Ext (p ++ d) e he
  have hk : digitRun (p ++ d).reverse = d.length := by
    rw [List.reverse_append, digitRun_append _ _ (fun c hc => hd c (List.mem_reverse.mp hc)), hp]
    simp
  have hi : splitIndex (p ++ d ++ e) = p.length := by
    unfold splitIndex
    rw [hb, hk]
    simp
  constructor
  · unfold namePrefix
    rw [hb, hi]
    exact List.take_left' rfl
  · unfold numericSuffix
    rw [hb, hi]
    exact List.drop_left' rfl

theorem extFrom_digits (r rest : List Nat) (acc : GoString)
    (hr : ∀ c ∈ r, 48 ≤ c ∧ c ≤ 57) :
    extFrom (r ++ rest) acc = extFrom rest (r.reverse ++ acc) := by
  induction r generalizing acc with
  | nil => rfl
  | cons c cs ih =>
    have hc := hr c (List.mem_cons_self _ _)
    have h2 := ih (c :: acc) (fun x hx => hr x (List.mem_cons_of_mem _ hx))
    rw [List.cons_append]
    simp only [extFrom]
    rw [if_neg (by omega), if_neg (by omega), h2]
    simp

theorem Ext_append_digits (f d : GoString) (hf : Ext f = [])
    (hd : ∀ c ∈ d, 48 ≤ c ∧ c ≤ 57) : Ext (f ++ d) = [] := by
  unfold Ext at hf ⊢
  rw [List.reverse_append, extFrom_digits _ _ _ (fun c hc => hd c (List.mem_reverse.mp hc))]
  exact extFrom_nil_acc _ _ _ hf


theorem strLess_field (p e1 e2 : GoString) (n m : Nat) (h : n < m) (hm : m < 2 ^ 64) :
    strLess (p ++ PutUint64 n ++ e1) (p ++ PutUint64 m ++ e2) = true := by
  have hlt := PutUint64_lt n m h hm
  have hne : PutUint64 n ≠ PutUint64 m := by
    intro heq
    rw [heq, strLess_irrefl] at hlt
    exact absurd hlt (by simp)
  rw [List.append_assoc, List.append_assoc, strLess_append_left,
    strLess_append_of_length_eq (PutUint64 n) (PutUint64 m) _ _ rfl hne]
  exact hlt

/-- C1: two file names that `sortName` splits into the same prefix and the same
extension, with trailing digit runs of decimal values `n < m` where
`m + 1 < 2^64`, have keys in the same strict byte-wise order. -/
theorem sortName_numeric_order (f g : GoString)
    (hp : namePrefix f = namePrefix g) (he : Ext f = Ext g)
    (hlt : digitsValue (numericSuffix f) < digitsValue (numericSuffix g))
    (hm : digitsValue (numericSuffix g) + 1 < 2 ^ 64) :
    strLess (sortName f) (sortName g) = true := by
  have hg : numericSuffix g ≠ [] := by
    intro h
    rw [h] at hlt
    exact absurd hlt (by simp [digitsValue])
  unfold sortName
  rw [numericField_of_value g hg hm, hp, he]
  by_cases hf : numericSuffix f = []
  · rw [numericField_of_empty f hf, ← PutUint64_zero]
    exact strLess_field _ _ _ _ _ (by omega) hm
  · rw [numericField_of_value f hf (by omega)]
    exact strLess_field _ _ _ _ _ (by omega) hm

/-- C1, at the names of the specification: the keys of `file9.txt`, `file10.txt`
and `file100.txt` are in strictly increasing byte-wise order. -/
theorem sortName_numeric_order_witness :
    strLess (sortName (ascii "file9.txt")) (sortName (ascii "file10.txt")) = true ∧
    strLess (sortName (ascii "file10.txt")) (sortName (ascii "file100.txt")) = true :=
  ⟨sortName_numeric_order (ascii "file9.txt") (ascii "file10.txt")
      (by decide) (by decide) (by decide) (by decide),
   sortName_numeric_order (ascii "file10.txt") (ascii "file100.txt")
      (by decide) (by decide) (by decide) (by decide)⟩

theorem Ext_insert_digits (f d : GoString) (hd : ∀ c ∈ d, 48 ≤ c ∧ c ≤ 57)
    (hs : numericSuffix f = []) :
    Ext (namePrefix f ++ d ++ Ext f) = Ext f := by
  rcases Ext_spec f with h | ⟨b, t, _, h2, h3⟩
  · have hf : namePrefix f = f := by
      have := split_append f
      rw [hs, h] at this
      simpa using this
    rw [h, List.append_nil, hf]
    exact Ext_append_digits f d h hd
  · rw [h3]
    exact Ext_append_ext _ t h2

/-- C5: a file name whose base has no trailing digit is its prefix followed by
its extension, and its key is strictly below the key of the name with `0`
(byte 48) put between prefix and extension. -/
theorem sortName_no_suffix_before_zero (f : GoString) (h : numericSuffix f = []) :
    namePrefix f ++ Ext f = f ∧
    strLess (sortName (namePrefix f ++ Ext f))
      (sortName (namePrefix f ++ [48] ++ Ext f)) = true := by
  have hf : namePrefix f ++ Ext f = f := by
    have := split_append f
    rw [h] at this
    simpa using this
  refine ⟨hf, ?_⟩
  have hd : ∀ c ∈ [48], 48 ≤ c ∧ c ≤ 57 := by simp
  have hE := Ext_insert_digits f [48] hd h
  obtain ⟨hp, hs⟩ := split_of_parts (namePrefix f) [48] (Ext f) hd (digitRun_namePrefix f) hE
  rw [hf]
  unfold sortName
  rw [hp, hE, numericField_of_empty f h,
    numericField_of_value _ (by rw [hs]; simp) (by rw [hs]; decide), hs, ← PutUint64_zero]
  exact strLess_field _ _ _ _ _ (by decide) (by decide)

/-- C5, at the names of the specification: the key of `file.txt` is strictly
below the key of `file0.txt`. -/
theorem sortName_no_suffix_before_zero_witness :
    strLess (sortName (ascii "file.txt")) (sortName (ascii "file0.txt")) = true :=
  (sortName_no_suffix_before_zero (ascii "file.txt") (by decide)).2


/-- Comparing two strings that start with different prefixes: the prefixes
decide, provided that where one prefix is a proper prefix of the other, the byte
following the shorter prefix is smaller than the next byte of the longer one. -/
theorem strLess_prefix_first : ∀ (p1 p2 s1 s2 : GoString), p1 ≠ p2 →
    (∀ c rest, p2 = p1 ++ c :: rest → s1 ≠ [] ∧ s1.headD 0 < c) →
    (∀ c rest, p1 = p2 ++ c :: rest → s2 ≠ [] ∧ s2.headD 0 < c) →
    strLess (p1 ++ s1) (p2 ++ s2) = strLess p1 p2
  | [], [], _, _, h, _, _ => absurd rfl h
  | [], c :: rest, s1, s2, _, h1, _ => by
    obtain ⟨hne, hlt⟩ := h1 c rest rfl
    cases s1 with
    | nil => exact absurd rfl hne
    | cons b bs =>
      simp only [List.headD_cons] at hlt
      simp [strLess, hlt]
  | c :: rest, [], s1, s2, _, _, h2 => by
    obtain ⟨hne, hlt⟩ := h2 c rest rfl
    cases s2 with
    | nil => exact absurd rfl hne
    | cons b bs =>
      simp only [List.headD_cons] at hlt
      have h3 : ¬ c < b := by omega
      simp [strLess, hlt, h3]
  | x :: xs, y :: ys, s1, s2, hne, h1, h2 => by
    simp only [List.cons_append, strLess]
    split_ifs with h3 h4
    · rfl
    · rfl
    · have hxy : x = y := by omega
      subst hxy
      refine strLess_prefix_first xs ys s1 s2 (by simpa using hne) ?_ ?_
      · intro c rest h
        exact h1 c rest (by rw [h]; rfl)
      · intro c rest h
        exact h2 c rest (by rw [h]; rfl)

theorem numericField_ne_nil (f : GoString) : numericField f ≠ [] := by
  intro h
  have := numericField_length f
  rw [h] at this
  simp at this

theorem numericField_append_headD (f : GoString) (e : GoString) :
    (numericField f ++ e).headD 0 = (numericField f).headD 0 := by
  have := numericField_ne_nil f
  cases h : numericField f with
  | nil => exact absurd h this
  | cons b bs => rfl

/-- C8 fails as stated: the prefix `a` of `a9999999999999999999` is byte-wise
below the prefix `ab` of `ab`, yet the key of `ab` is below the key of
`a9999999999999999999`, whose numeric field starts with the byte 138. -/
theorem sortName_prefix_first_counterexample :
    namePrefix (ascii "a9999999999999999999") ≠ namePrefix (ascii "ab") ∧
    strLess (namePrefix (ascii "a9999999999999999999")) (namePrefix (ascii "ab")) = true ∧
    strLess (sortName (ascii "a9999999999999999999")) (sortName (ascii "ab")) = false ∧
    strLess (sortName (ascii "ab")) (sortName (ascii "a9999999999999999999")) = true := by
  decide

/-- C8, amended: when the prefixes of two file names differ, the byte-wise order
of their keys is the byte-wise order of their prefixes, provided that where one
prefix is a proper prefix of the other, the first byte of the shorter name's
numeric field is smaller than the byte that follows in the longer prefix. -/
theorem sortName_prefix_first (f g : GoString) (hne : namePrefix f ≠ namePrefix g)
    (hfg : ∀ c rest, namePrefix g = namePrefix f ++ c :: rest →
      (numericField f).headD 0 < c)
    (hgf : ∀ c rest, namePrefix f = namePrefix g ++ c :: rest →
      (numericField g).headD 0 < c) :
    strLess (sortName f) (sortName g) = strLess (namePrefix f) (namePrefix g) := by
  unfold sortName
  rw [List.append_assoc, List.append_assoc]
  refine strLess_prefix_first _ _ _ _ hne ?_ ?_
  · intro c rest h
    refine ⟨by simp [numericField_ne_nil], ?_⟩
    rw [numericField_append_headD]
    exact hfg c rest h
  · intro c rest h
    refine ⟨by simp [numericField_ne_nil], ?_⟩
    rw [numericField_append_headD]
    exact hgf c rest h

/-- C8, amended, at `a7.txt` and `ab.txt`: the prefix `a` is a proper prefix of
`ab`, the numeric field of `a7.txt` starts with a zero byte, and the keys are
ordered as the prefixes are. -/
theorem sortName_prefix_first_witness :
    namePrefix (ascii "a7.txt") ≠ namePrefix (ascii "ab.txt") ∧
    strLess (sortName (ascii "a7.txt")) (sortName (ascii "ab.txt")) =
      strLess (namePrefix (ascii "a7.txt")) (namePrefix (ascii "ab.txt")) :=
  ⟨by decide,
   sortName_prefix_first (ascii "a7.txt") (ascii "ab.txt") (by decide)
    (fun c rest h => by
      have h1 : namePrefix (ascii "ab.txt") = [97, 98] := by decide
      have h2 : namePrefix (ascii "a7.txt") = [97] := by decide
      have h3 : (numericField (ascii "a7.txt")).headD 0 = 0 := by decide
      rw [h1, h2] at h
      rw [h3]
      simp only [List.singleton_append, List.cons.injEq, true_and] at h
      omega)
    (fun c rest h => by
      have h1 : namePrefix (ascii "ab.txt") = [97, 98] := by decide
      have h2 : namePrefix (ascii "a7.txt") = [97] := by decide
      rw [h1, h2] at h
      simp at h)⟩

/-- C9: at the file name `a18446744073709551615`, whose digit run has the value
`2^64 - 1`, the stored `u64 + 1` wraps to zero: the numeric field is the all-zero
field and the key equals the key of `a`. -/
theorem sortName_max_uint64_wraps :
    digitsValue (numericSuffix (ascii "a18446744073709551615")) = 2 ^ 64 - 1 ∧
    ParseUint (numericSuffix (ascii "a18446744073709551615")) = some (2 ^ 64 - 1) ∧
    numericField (ascii "a18446744073709551615") = zeroField ∧
    numericField (ascii "a18446744073709551615") = numericField (ascii "a") ∧
    sortName (ascii "a18446744073709551615") = sortName (ascii "a") := by
  decide


/-! ## The comparison function of the listing -/

theorem less_irrefl (a : File) : less a a = false := by
  simp [less, strLess_irrefl]

theorem less_trans (a b c : File) (h1 : less a b = true) (h2 : less b c = true) :
    less a c = true := by
  unfold less at h1 h2 ⊢
  split_ifs at h1 h2 ⊢
  all_goals first
    | exact strLess_trans _ _ _ h1 h2
    | omega
    | (simp only [decide_eq_true_eq] at *; omega)

theorem less_incomp (a b : File) (h1 : less a b = false) (h2 : less b a = false) :
    a.Typ = b.Typ ∧ sortName a.Name = sortName b.Name := by
  unfold less at h1 h2
  split_ifs at h1 h2 with e1 e2 e2
  · exact ⟨e1, strLess_total _ _ h1 h2⟩
  · exact absurd e1.symm e2
  · exact absurd e2.symm e1
  · simp only [decide_eq_false_iff_not] at h1 h2
    omega

theorem less_of_incomp (a b : File) (h1 : a.Typ = b.Typ)
    (h2 : sortName a.Name = sortName b.Name) : less a b = false := by
  simp [less, h1, h2, strLess_irrefl]

theorem less_strictWeakOrder : StrictWeakOrder less := by
  refine ⟨less_irrefl, less_trans, ?_⟩
  intro a b c h1 h2 h3 h4
  obtain ⟨t1, k1⟩ := less_incomp a b h1 h2
  obtain ⟨t2, k2⟩ := less_incomp b c h3 h4
  exact ⟨less_of_incomp a c (t1.trans t2) (k1.trans k2),
    less_of_incomp c a (t1.trans t2).symm (k1.trans k2).symm⟩

/-! ## Insertion sort meets the contract of `sort.Slice` -/

theorem StrictWeakOrder.asymm {α : Type} {lt : α → α → Bool} (h : StrictWeakOrder lt)
    (a b : α) (hab : lt a b = true) : lt b a = false := by
  cases hba : lt b a with
  | false => rfl
  | true =>
    have := h.trans a b a hab hba
    rw [h.irrefl] at this
    exact absurd this (by simp)

theorem StrictWeakOrder.neg_trans {α : Type} {lt : α → α → Bool} (h : StrictWeakOrder lt)
    (a b c : α) (hab : lt a b = false) (hbc : lt b c = false) : lt a c = false := by
  cases hac : lt a c with
  | false => rfl
  | true =>
    cases hba : lt b a with
    | true =>
      have := h.trans b a c hba hac
      rw [hbc] at this
      exact absurd this (by simp)
    | false =>
      cases hcb : lt c b with
      | true =>
        have := h.trans a c b hac hcb
        rw [hab] at this
        exact absurd this (by simp)
      | false =>
        have := (h.incomp_trans a b c hab hba hbc hcb).1
        rw [hac] at this
        exact absurd this (by simp)

theorem sinkLeft_perm {α : Type} (lt : α → α → Bool) (x : α) (l : List α) :
    (sinkLeft lt x l).Perm (x :: l) := by
  induction l with
  | nil => exact List.Perm.refl _
  | cons y ys ih =>
    simp only [sinkLeft]
    split_ifs
    · exact ((List.Perm.cons y ih).trans (List.Perm.swap x y ys))
    · exact List.Perm.refl _

theorem insertionLoop_perm {α : Type} (lt : α → α → Bool) (sorted xs : List α) :
    (insertionLoop lt sorted xs).Perm (sorted ++ xs) := by
  induction xs generalizing sorted with
  | nil => simp [insertionLoop]
  | cons x xs ih =>
    simp only [insertionLoop]
    refine (ih _).trans ?_
    refine ((sinkLeft_perm lt x sorted).append_right xs).trans ?_
    exact List.perm_middle.symm

theorem sinkLeft_sorted {α : Type} {lt : α → α → Bool} (h : StrictWeakOrder lt) (x : α)
    (l : List α) (hl : l.Pairwise (fun a b => lt a b = false)) :
    (sinkLeft lt x l).Pairwise (fun a b => lt a b = false) := by
  induction l with
  | nil => simp [sinkLeft]
  | cons y ys ih =>
    rw [List.pairwise_cons] at hl
    simp only [sinkLeft]
    split_ifs with hxy
    · rw [List.pairwise_cons]
      refine ⟨?_, ih hl.2⟩
      intro z hz
      rcases List.mem_cons.mp ((sinkLeft_perm lt x ys).mem_iff.mp hz) with rfl | hz
      · exact h.asymm _ _ hxy
      · exact hl.1 z hz
    · have hxy2 : lt x y = false := by simpa using hxy
      rw [List.pairwise_cons]
      refine ⟨?_, List.pairwise_cons.mpr hl⟩
      intro z hz
      rcases List.mem_cons.mp hz with rfl | hz
      · exact hxy2
      · exact h.neg_trans x y z hxy2 (hl.1 z hz)

theorem insertionLoop_sorted {α : Type} {lt : α → α → Bool} (h : StrictWeakOrder lt)
    (sorted xs : List α) (hs : sorted.Pairwise (fun a b => lt a b = false)) :
    (insertionLoop lt sorted xs).Pairwise (fun a b => lt b a = false) := by
  induction xs generalizing sorted with
  | nil => simpa [insertionLoop, List.pairwise_reverse] using hs
  | cons x xs ih =>
    simp only [insertionLoop]
    exact ih _ (sinkLeft_sorted h x sorted hs)

/-- Go's insertion sort is a permutation and sorts under a strict weak
ordering. -/
theorem insertionSort_contract : SortSliceContract insertionSortLessFunc :=
  ⟨fun lt xs => by simpa [insertionSortLessFunc] using insertionLoop_perm lt [] xs,
   fun lt xs h => insertionLoop_sorted h [] xs List.Pairwise.nil⟩

/-! ## The loop of `QueryFiles` -/

theorem newFile_ok (cfg : Config) (path : GoString) (file : DirEntry)
    (h : file.isDir = false → file.info ≠ none) : ∃ f, newFile cfg path file = .ok f := by
  unfold newFile
  by_cases hd : file.isDir = true
  · rw [if_pos hd]
    exact ⟨_, rfl⟩
  · rw [if_neg hd]
    cases hi : file.info with
    | none => exact absurd hi (h (by simpa using hd))
    | some size => exact ⟨_, rfl⟩

theorem newFile_Typ (cfg : Config) (path : GoString) (file : DirEntry) (f : File)
    (h : newFile cfg path file = .ok f) : f.Typ = if file.isDir then 0 else 1 := by
  unfold newFile at h
  split_ifs at h with hd
  · injection h with h
    rw [← h, if_pos hd]
  · cases hi : file.info with
    | none => rw [hi] at h; exact Except.noConfusion h
    | some size =>
      rw [hi] at h
      injection h with h
      rw [← h, if_neg hd]

theorem newFile_Name_head (cfg : Config) (path : GoString) (file : DirEntry) (f : File)
    (h : newFile cfg path file = .ok f) (hne : file.name ≠ []) :
    f.Name.head? = file.name.head? := by
  unfold newFile at h
  cases hn : file.name with
  | nil => exact absurd hn hne
  | cons c cs =>
    split_ifs at h with hd
    · injection h with h
      rw [← h, hn]
      rfl
    · cases hi : file.info with
      | none => rw [hi] at h; exact Except.noConfusion h
      | some size =>
        rw [hi] at h
        injection h with h
        rw [← h, hn]

/-- What a returned loop says of its input: no name is empty, and the entries
appended are those built, one by one and in order, from the children that are not
hidden. -/
theorem rangeFiles_inv (cfg : Config) (path : GoString) (files : List DirEntry)
    (res out : List File) (h : rangeFiles cfg path files res = .ok out) :
    (∀ c ∈ files, c.name ≠ []) ∧
    ∃ built, List.Forall₂ (fun c f => newFile cfg path c = .ok f)
      (files.filter (fun c => !hidden c)) built ∧ out = res ++ built := by
  induction files generalizing res with
  | nil =>
    simp only [rangeFiles] at h
    injection h with h
    exact ⟨by simp, [], by simp, by simp [h]⟩
  | cons file rest ih =>
    cases hn : file.name with
    | nil =>
      simp only [rangeFiles, hn] at h
      exact Except.noConfusion h
    | cons c cs =>
      simp only [rangeFiles, hn] at h
      by_cases hc : c = 46
      · rw [if_pos hc] at h
        obtain ⟨h1, built, h2, h3⟩ := ih res h
        refine ⟨?_, built, ?_, h3⟩
        · intro x hx
          rcases List.mem_cons.mp hx with rfl | hx
          · rw [hn]; simp
          · exact h1 x hx
        · have hh : hidden file = true := by simp [hidden, hn, hc]
          simpa [List.filter_cons, hh] using h2
      · rw [if_neg hc] at h
        cases hf : newFile cfg path file with
        | error p =>
          rw [hf] at h
          exact Except.noConfusion h
        | ok nFile =>
          rw [hf] at h
          obtain ⟨h1, built, h2, h3⟩ := ih _ h
          refine ⟨?_, nFile :: built, ?_, by rw [h3]; simp⟩
          · intro x hx
            rcases List.mem_cons.mp hx with rfl | hx
            · rw [hn]; simp
            · exact h1 x hx
          · have hh : hidden file = false := by simp [hidden, hn, hc]
            simp only [List.filter_cons, hh, Bool.not_false, if_true]
            exact List.Forall₂.cons hf h2

/-- The loop returns when no name is empty and `Info()` succeeds on every file
that is not hidden. -/
theorem rangeFiles_ok (cfg : Config) (path : GoString) (files : List DirEntry)
    (res : List File) (hne : ∀ c ∈ files, c.name ≠ [])
    (hinfo : ∀ c ∈ files, hidden c = false → c.isDir = false → c.info ≠ none) :
    ∃ out, rangeFiles cfg path files res = .ok out := by
  induction files generalizing res with
  | nil => exact ⟨res, rfl⟩
  | cons file rest ih =>
    have h1 := hne file (List.mem_cons_self _ _)
    have h2 : ∀ c ∈ rest, c.name ≠ [] := fun c hc => hne c (List.mem_cons_of_mem _ hc)
    have h3 : ∀ c ∈ rest, hidden c = false → c.isDir = false → c.info ≠ none :=
      fun c hc => hinfo c (List.mem_cons_of_mem _ hc)
    cases hn : file.name with
    | nil => exact absurd hn h1
    | cons c cs =>
      simp only [rangeFiles, hn]
      by_cases hc : c = 46
      · rw [if_pos hc]
        exact ih res h2 h3
      · rw [if_neg hc]
        have hh : hidden file = false := by simp [hidden, hn, hc]
        obtain ⟨f, hf⟩ := newFile_ok cfg path file (hinfo file (List.mem_cons_self _ _) hh)
        rw [hf]
        exact ih _ h2 h3

theorem forall₂_mem_right {α β : Type} {R : α → β → Prop} {l : List α} {m : List β}
    (h : List.Forall₂ R l m) : ∀ b ∈ m, ∃ a ∈ l, R a b := by
  induction h with
  | nil => simp
  | cons hab _ ih =>
    intro b hb
    rcases List.mem_cons.mp hb with rfl | hb
    · exact ⟨_, List.mem_cons_self _ _, hab⟩
    · obtain ⟨a, ha, hr⟩ := ih b hb
      exact ⟨a, List.mem_cons_of_mem _ ha, hr⟩

/-! ## `QueryFiles` -/

theorem QueryFiles_inv (sortSlice : (File → File → Bool) → List File → List File)
    (ReadDir : GoString → List DirEntry × Option GoString) (cfg : Config) (path : GoString)
    (out : List File) (h : QueryFiles sortSlice ReadDir cfg path = .ok out) :
    ∃ files res, ReadDir (cfg.base_path ++ path) = (files, none) ∧
      rangeFiles cfg path files [] = .ok res ∧ out = sortSlice less res := by
  unfold QueryFiles at h
  rcases hr : ReadDir (cfg.base_path ++ path) with ⟨files, err⟩
  rw [hr] at h
  cases err with
  | some e => exact Except.noConfusion h
  | none =>
    simp only at h
    cases hl : rangeFiles cfg path files [] with
    | error p =>
      rw [hl] at h
      exact Except.noConfusion h
    | ok res =>
      rw [hl] at h
      injection h with h
      exact ⟨files, res, rfl, hl, h.symm⟩

theorem QueryFiles_returns (sortSlice : (File → File → Bool) → List File → List File)
    (ReadDir : GoString → List DirEntry × Option GoString) (cfg : Config) (path : GoString)
    (files : List DirEntry) (hread : ReadDir (cfg.base_path ++ path) = (files, none))
    (hne : ∀ c ∈ files, c.name ≠ [])
    (hinfo : ∀ c ∈ files, hidden c = false → c.isDir = false → c.info ≠ none) :
    ∃ out, QueryFiles sortSlice ReadDir cfg path = .ok out := by
  obtain ⟨res, hres⟩ := rangeFiles_ok cfg path files [] hne hinfo
  unfold QueryFiles
  rw [hread]
  simp only [hres]
  exact ⟨_, rfl⟩

theorem sortSlice_getElem (sortSlice : (File → File → Bool) → List File → List File)
    (hs : SortSliceContract sortSlice) (xs : List File) :
    ∀ (i j : Nat) (hi : i < (sortSlice less xs).length) (hj : j < (sortSlice less xs).length),
      i < j → less (sortSlice less xs)[j] (sortSlice less xs)[i] = false :=
  List.pairwise_iff_getElem.mp (hs.sorted less xs less_strictWeakOrder)

/-- C2: in every list that `QueryFiles` returns, each entry of type 0 (directory)
stands at a smaller index than each entry of type 1 (file); and a list is
returned whenever the directory is read, no child has an empty name and `Info()`
succeeds on every file that is not hidden. -/
theorem QueryFiles_dirs_first
    (sortSlice : (File → File → Bool) → List File → List File)
    (hs : SortSliceContract sortSlice)
    (ReadDir : GoString → List DirEntry × Option GoString) (cfg : Config) (path : GoString) :
    (∀ out, QueryFiles sortSlice ReadDir cfg path = .ok out →
      ∀ (i j : Nat) (hi : i < out.length) (hj : j < out.length),
        out[i].Typ = 0 → out[j].Typ = 1 → i < j) ∧
    (∀ files, ReadDir (cfg.base_path ++ path) = (files, none) →
      (∀ c ∈ files, c.name ≠ []) →
      (∀ c ∈ files, hidden c = false → c.isDir = false → c.info ≠ none) →
      ∃ out, QueryFiles sortSlice ReadDir cfg path = .ok out) := by
  refine ⟨?_, fun files hread hne hinfo =>
    QueryFiles_returns sortSlice ReadDir cfg path files hread hne hinfo⟩
  intro out hout
  obtain ⟨files, res, _, _, rfl⟩ := QueryFiles_inv sortSlice ReadDir cfg path out hout
  intro i j hi hj hd hf
  have hp := sortSlice_getElem sortSlice hs res
  by_contra hij
  have hji : j ≤ i := Nat.le_of_not_lt hij
  rcases Nat.lt_or_eq_of_le hji with hlt | heq
  · have h := hp j i hj hi hlt
    simp [less, hd, hf] at h
  · subst heq
    rw [hd] at hf
    exact absurd hf (by decide)

/-- C2, on the sample directory: the listing is returned and its directories
come before its files. -/
theorem QueryFiles_dirs_first_witness :
    ∃ out, QueryFiles insertionSortLessFunc sampleReadDir sampleConfig (ascii "/") = .ok out ∧
      ∀ (i j : Nat) (hi : i < out.length) (hj : j < out.length),
        out[i].Typ = 0 → out[j].Typ = 1 → i < j :=
  match (QueryFiles_dirs_first insertionSortLessFunc insertionSort_contract sampleReadDir
    sampleConfig (ascii "/")).2 sampleDir rfl (by decide) (by decide) with
  | ⟨out, hout⟩ =>
    ⟨out, hout, (QueryFiles_dirs_first insertionSortLessFunc insertionSort_contract
      sampleReadDir sampleConfig (ascii "/")).1 out hout⟩

/-- C3: every list that `QueryFiles` returns comes from a directory read without
error and is a permutation of the entries built, one for one, from the children
whose name does not start with `'.'`, and no returned entry has a name starting
with `'.'`; and a list is returned whenever the directory is read, no child has
an empty name and `Info()` succeeds on every file that is not hidden. -/
theorem QueryFiles_content
    (sortSlice : (File → File → Bool) → List File → List File)
    (hs : SortSliceContract sortSlice)
    (ReadDir : GoString → List DirEntry × Option GoString) (cfg : Config) (path : GoString) :
    (∀ out, QueryFiles sortSlice ReadDir cfg path = .ok out →
      ∃ files built, ReadDir (cfg.base_path ++ path) = (files, none) ∧
        List.Forall₂ (fun c f => newFile cfg path c = .ok f)
          (files.filter (fun c => !hidden c)) built ∧
        out.Perm built ∧ ∀ f ∈ out, f.Name.head? ≠ some 46) ∧
    (∀ files, ReadDir (cfg.base_path ++ path) = (files, none) →
      (∀ c ∈ files, c.name ≠ []) →
      (∀ c ∈ files, hidden c = false → c.isDir = false → c.info ≠ none) →
      ∃ out, QueryFiles sortSlice ReadDir cfg path = .ok out) := by
  refine ⟨?_, fun files hread hne hinfo =>
    QueryFiles_returns sortSlice ReadDir cfg path files hread hne hinfo⟩
  intro out hout
  obtain ⟨files, res, hread, hres, rfl⟩ := QueryFiles_inv sortSlice ReadDir cfg path out hout
  obtain ⟨hne, built, hb, hrb⟩ := rangeFiles_inv cfg path files [] res hres
  rw [List.nil_append] at hrb
  subst hrb
  refine ⟨files, res, hread, hb, hs.perm _ _, ?_⟩
  intro f hf
  rw [(hs.perm _ _).mem_iff] at hf
  obtain ⟨c, hc, hcf⟩ := forall₂_mem_right hb f hf
  rw [List.mem_filter] at hc
  rw [newFile_Name_head cfg path c f hcf (hne c hc.1)]
  simpa [hidden] using hc.2

/-- C3, on the sample directory: the listing is returned and is a permutation of
the six entries built from the children that are not hidden. -/
theorem QueryFiles_content_witness :
    ∃ out, QueryFiles insertionSortLessFunc sampleReadDir sampleConfig (ascii "/") = .ok out ∧
      ∃ files built, sampleReadDir (sampleConfig.base_path ++ ascii "/") = (files, none) ∧
        List.Forall₂ (fun c f => newFile sampleConfig (ascii "/") c = .ok f)
          (files.filter (fun c => !hidden c)) built ∧
        out.Perm built ∧ ∀ f ∈ out, f.Name.head? ≠ some 46 :=
  match (QueryFiles_content insertionSortLessFunc insertionSort_contract sampleReadDir
    sampleConfig (ascii "/")).2 sampleDir rfl (by decide) (by decide) with
  | ⟨out, hout⟩ =>
    ⟨out, hout, (QueryFiles_content insertionSortLessFunc insertionSort_contract
      sampleReadDir sampleConfig (ascii "/")).1 out hout⟩

/-- C10: in every list that `QueryFiles` returns, of two entries of type 1
(file) the earlier one has a key equal to or byte-wise less than the key of the
later one; and a list is returned whenever the directory is read, no child has an
empty name and `Info()` succeeds on every file that is not hidden. -/
theorem QueryFiles_files_in_key_order
    (sortSlice : (File → File → Bool) → List File → List File)
    (hs : SortSliceContract sortSlice)
    (ReadDir : GoString → List DirEntry × Option GoString) (cfg : Config) (path : GoString) :
    (∀ out, QueryFiles sortSlice ReadDir cfg path = .ok out →
      ∀ (i j : Nat) (hi : i < out.length) (hj : j < out.length), i < j →
        out[i].Typ = 1 → out[j].Typ = 1 →
        sortName out[i].Name = sortName out[j].Name ∨
          strLess (sortName out[i].Name) (sortName out[j].Name) = true) ∧
    (∀ files, ReadDir (cfg.base_path ++ path) = (files, none) →
      (∀ c ∈ files, c.name ≠ []) →
      (∀ c ∈ files, hidden c = false → c.isDir = false → c.info ≠ none) →
      ∃ out, QueryFiles sortSlice ReadDir cfg path = .ok out) := by
  refine ⟨?_, fun files hread hne hinfo =>
    QueryFiles_returns sortSlice ReadDir cfg path files hread hne hinfo⟩
  intro out hout
  obtain ⟨files, res, _, _, rfl⟩ := QueryFiles_inv sortSlice ReadDir cfg path out hout
  intro i j hi hj hij h1 h2
  have h := sortSlice_getElem sortSlice hs res i j hi hj hij
  simp only [less, h1, h2, if_true] at h
  cases hlt : strLess (sortName _) (sortName _) with
  | true => exact Or.inr rfl
  | false => exact Or.inl (strLess_total _ _ hlt h)

/-- C10, on the sample directory: the listing is returned and its files are in
key order. -/
theorem QueryFiles_files_in_key_order_witness :
    ∃ out, QueryFiles insertionSortLessFunc sampleReadDir sampleConfig (ascii "/") = .ok out ∧
      ∀ (i j : Nat) (hi : i < out.length) (hj : j < out.length), i < j →
        out[i].Typ = 1 → out[j].Typ = 1 →
        sortName out[i].Name = sortName out[j].Name ∨
          strLess (sortName out[i].Name) (sortName out[j].Name) = true :=
  match (QueryFiles_files_in_key_order insertionSortLessFunc insertionSort_contract
    sampleReadDir sampleConfig (ascii "/")).2 sampleDir rfl (by decide) (by decide) with
  | ⟨out, hout⟩ =>
    ⟨out, hout, (QueryFiles_files_in_key_order insertionSortLessFunc insertionSort_contract
      sampleReadDir sampleConfig (ascii "/")).1 out hout⟩

theorem perm_pair {α : Type} (a b : α) (l : List α) (h : l.Perm [a, b]) :
    l = [a, b] ∨ l = [b, a] := by
  have hlen := h.length_eq
  match l, hlen with
  | [x, y], _ =>
    have hx : x ∈ [a, b] := h.mem_iff.mp (by simp)
    have hy : y ∈ [a, b] := h.mem_iff.mp (by simp)
    have ha : a ∈ [x, y] := h.mem_iff.mpr (by simp)
    have hb : b ∈ [x, y] := h.mem_iff.mpr (by simp)
    simp only [List.mem_cons, List.mem_singleton, List.not_mem_nil, or_false] at hx hy ha hb
    by_cases hab : a = b
    · subst hab
      rcases hx with rfl | rfl <;> rcases hy with rfl | rfl <;> simp
    · rcases hx with rfl | rfl <;> rcases hy with rfl | rfl
      · rcases hb with rfl | rfl <;> exact absurd rfl hab
      · exact Or.inl rfl
      · exact Or.inr rfl
      · rcases ha with rfl | rfl <;> exact absurd rfl hab

/-- C7: on a directory holding the sub-directories `dir9` and `dir10`,
`QueryFiles` lists `dir10/` before `dir9/`: the key is taken of the entry name
with its trailing `/`, which ends the digit scan at once. -/
theorem QueryFiles_dir10_before_dir9
    (sortSlice : (File → File → Bool) → List File → List File)
    (hs : SortSliceContract sortSlice)
    (ReadDir : GoString → List DirEntry × Option GoString) (cfg : Config) (path : GoString)
    (hread : ReadDir (cfg.base_path ++ path) = (twoDirs, none)) :
    QueryFiles sortSlice ReadDir cfg path =
      .ok [File.mk (ascii "dir10/") 0
             (cfg.base_url ++ ascii "?path=" ++ path ++ ascii "dir10" ++ ascii "/") [],
           File.mk (ascii "dir9/") 0
             (cfg.base_url ++ ascii "?path=" ++ path ++ ascii "dir9" ++ ascii "/") []] := by
  have hl : rangeFiles cfg path twoDirs [] =
      .ok [File.mk (ascii "dir10/") 0
         (cfg.base_url ++ ascii "?path=" ++ path ++ ascii "dir10" ++ ascii "/") [],
       File.mk (ascii "dir9/") 0
         (cfg.base_url ++ ascii "?path=" ++ path ++ ascii "dir9" ++ ascii "/") []] := rfl
  unfold QueryFiles
  rw [hread]
  simp only [hl]
  have hperm := hs.perm less [File.mk (ascii "dir10/") 0
         (cfg.base_url ++ ascii "?path=" ++ path ++ ascii "dir10" ++ ascii "/") [],
       File.mk (ascii "dir9/") 0
         (cfg.base_url ++ ascii "?path=" ++ path ++ ascii "dir9" ++ ascii "/") []]
  have hsorted := hs.sorted less [File.mk (ascii "dir10/") 0
         (cfg.base_url ++ ascii "?path=" ++ path ++ ascii "dir10" ++ ascii "/") [],
       File.mk (ascii "dir9/") 0
         (cfg.base_url ++ ascii "?path=" ++ path ++ ascii "dir9" ++ ascii "/") []]
       less_strictWeakOrder
  rcases perm_pair _ _ _ hperm with h | h
  · rw [h]
  · rw [h] at hsorted
    rw [List.pairwise_cons] at hsorted
    have := hsorted.1 _ (List.mem_singleton.mpr rfl)
    have hk : strLess (sortName (ascii "dir10/")) (sortName (ascii "dir9/")) = true := by decide
    simp [less, hk] at this

/-- C7, with Go's insertion sort on a sample file system: the listing of a
directory holding `dir9` and `dir10` starts with `dir10/`. -/
theorem QueryFiles_dir10_before_dir9_witness :
    strLess (sortName (ascii "dir10/")) (sortName (ascii "dir9/")) = true ∧
    (QueryFiles insertionSortLessFunc (fun _ => (twoDirs, none)) sampleConfig (ascii "/")).map
      (fun out => out.map File.Name) = .ok [ascii "dir10/", ascii "dir9/"] :=
  ⟨by decide, by
    rw [QueryFiles_dir10_before_dir9 insertionSortLessFunc insertionSort_contract
      (fun _ => (twoDirs, none)) sampleConfig (ascii "/") rfl]
    rfl⟩

/-! ## `strings.Split` and `strings.Join` -/

theorem Split_ne_nil (s : GoString) : Split s ≠ [] := by
  cases s with
  | nil => simp [Split]
  | cons c cs =>
    simp only [Split]
    split_ifs
    · simp
    · split <;> simp

theorem Split_append_slash (s : GoString) : Split (s ++ [47]) = Split s ++ [[]] := by
  induction s with
  | nil => simp [Split]
  | cons c cs ih =>
    rw [List.cons_append]
    unfold Split
    rw [ih]
    split_ifs
    · rfl
    · cases h : Split cs with
      | nil => exact absurd h (Split_ne_nil cs)
      | cons seg segs => rfl

theorem Split_noslash (s : GoString) : ∀ seg ∈ Split s, 47 ∉ seg := by
  induction s with
  | nil => simp [Split]
  | cons c cs ih =>
    simp only [Split]
    split_ifs with hc
    · intro seg hseg
      rcases List.mem_cons.mp hseg with rfl | hseg
      · simp
      · exact ih seg hseg
    · cases h : Split cs with
      | nil => exact absurd h (Split_ne_nil cs)
      | cons seg segs =>
        rw [h] at ih
        intro x hx
        rcases List.mem_cons.mp hx with rfl | hx
        · intro hmem
          rcases List.mem_cons.mp hmem with h47 | hmem
          · exact hc h47.symm
          · exact ih seg (List.mem_cons_self _ _) hmem
        · exact ih x (List.mem_cons_of_mem _ hx)

theorem Split_segment (a : GoString) (h : 47 ∉ a) : Split a = [a] := by
  induction a with
  | nil => rfl
  | cons c cs ih =>
    have hc : ¬ c = 47 := fun e => h (by simp [e])
    have hcs : 47 ∉ cs := fun e => h (List.mem_cons_of_mem _ e)
    simp [Split, hc, ih hcs]

theorem Split_segment_slash (a rest : GoString) (h : 47 ∉ a) :
    Split (a ++ 47 :: rest) = a :: Split rest := by
  induction a with
  | nil => simp [Split]
  | cons c cs ih =>
    have hc : ¬ c = 47 := fun e => h (by simp [e])
    have hcs : 47 ∉ cs := fun e => h (List.mem_cons_of_mem _ e)
    simp [Split, hc, ih hcs]

theorem Split_Join (xs : List GoString) (hne : xs ≠ []) (h : ∀ s ∈ xs, 47 ∉ s) :
    Split (Join xs) = xs := by
  induction xs with
  | nil => exact absurd rfl hne
  | cons a rest ih =>
    cases rest with
    | nil => exact Split_segment a (h a (List.mem_cons_self _ _))
    | cons b rest2 =>
      simp only [Join]
      rw [Split_segment_slash _ _ (h a (List.mem_cons_self _ _)),
        ih (by simp) (fun s hs => h s (List.mem_cons_of_mem _ hs))]

/-! ## The two steps of the normalisation -/

theorem index_sub {α : Type} (s : List α) (k : Nat) (x : α)
    (h : s.get? (s.length - k) = some x) (hk : k ≤ s.length) :
    index s ((s.length : Int) - (k : Int)) = .ok x := by
  unfold index
  have h1 : (0 : Int) ≤ (s.length : Int) - (k : Int) := by omega
  have h2 : ((s.length : Int) - (k : Int)).toNat = s.length - k := by omega
  rw [if_pos h1, h2, h]

theorem sliceTo_sub {α : Type} (s : List α) (k : Nat) (hk : k ≤ s.length) :
    sliceTo s ((s.length : Int) - (k : Int)) = .ok (s.take (s.length - k)) := by
  unfold sliceTo
  have h1 : (0 : Int) ≤ (s.length : Int) - (k : Int) ∧
      (s.length : Int) - (k : Int) ≤ (s.length : Int) := by omega
  have h2 : ((s.length : Int) - (k : Int)).toNat = s.length - k := by omega
  rw [if_pos h1, h2]

/-- The first step always yields a path that ends in `'/'`: the input itself
when it ends so, the input with `'/'` appended otherwise. -/
theorem withSlash_spec (path : GoString) :
    ∃ q, withSlash path = .ok (q ++ [47]) ∧ (q = path ∨ q ++ [47] = path) := by
  rcases List.eq_nil_or_concat path with rfl | ⟨q, c, h⟩
  · exact ⟨[], by decide, Or.inl rfl⟩
  · rw [List.concat_eq_append] at h
    subst h
    have hlen : (q ++ [c]).length = q.length + 1 := by simp
    have hget : (q ++ [c]).get? ((q ++ [c]).length - 1) = some c := by
      simp [hlen]
    have hidx := index_sub (q ++ [c]) 1 c hget (by simp)
    simp only [Nat.cast_one] at hidx
    have hne : ¬ ((q ++ [c]).length = 0) := by simp
    have hpos : (q ++ [c]).length > 0 := by simp
    have ha : ascii "/" = [47] := rfl
    unfold withSlash
    simp only [if_neg hne, if_pos hpos, hidx, ha]
    by_cases hc : c = 47
    · subst hc
      exact ⟨q, by simp, Or.inr rfl⟩
    · exact ⟨q ++ [c], by simp [hc], Or.inl rfl⟩

theorem stripParent_short (p : GoString) (h : (Split p).length ≤ 2) :
    stripParent p = .ok p := by
  unfold stripParent
  simp only
  rw [if_neg (by omega)]

theorem stripParent_long (p : GoString) (zs : List GoString) (a l e : GoString)
    (h : Split p = zs ++ [a, l, e]) :
    stripParent p = .ok (if l = dotdot then Join zs ++ [47] else p) := by
  unfold stripParent
  simp only
  have hlen : (Split p).length = zs.length + 3 := by simp [h]
  have hget : (Split p).get? ((Split p).length - 2) = some l := by
    rw [hlen, h]
    have : zs.length + 3 - 2 = zs.length + 1 := by omega
    rw [this, List.get?_eq_getElem?, List.getElem?_append_right (by omega)]
    simp
  have htake : (Split p).take ((Split p).length - 3) = zs := by
    rw [hlen, h]
    simp
  have hidx := index_sub (Split p) 2 l hget (by omega)
  have hsl := sliceTo_sub (Split p) 3 (by omega)
  simp only [Nat.cast_ofNat] at hidx hsl
  rw [if_pos (by omega), hidx]
  simp only
  split_ifs with hl
  · rw [hsl, htake]
    rfl
  · rfl


theorem Split_length_of_slash (t : GoString) : 2 ≤ (Split (47 :: t)).length := by
  have h := Split_ne_nil t
  have : 0 < (Split t).length := List.length_pos.mpr h
  simp only [Split, if_true, List.length_cons]
  omega

theorem normalizePath_eq (path q : GoString) (hw : withSlash path = .ok (q ++ [47])) :
    normalizePath path = stripParent (q ++ [47]) := by
  unfold normalizePath
  rw [hw]
  simp

/-- C4 fails as stated: the input `/../x` is normalized to `/../x/`, and the
input `..` to `../`; both keep the segment `..`. -/
theorem normalizePath_dotdot_counterexample :
    (normalizePath (ascii "/../x") = .ok (ascii "/../x/") ∧
      dotdot ∈ Split (ascii "/../x/")) ∧
    (normalizePath (ascii "..") = .ok (ascii "../") ∧ dotdot ∈ Split (ascii "../")) := by
  decide

theorem withoutFinalHop_single (l : GoString) : withoutFinalHop [l] = [l] := rfl

theorem withoutFinalHop_long (zs : List GoString) (a l : GoString) :
    withoutFinalHop (zs ++ [a, l]) = if l = dotdot then zs else zs ++ [a, l] := by
  unfold withoutFinalHop
  have h : (zs ++ [a, l]).reverse = l :: a :: zs.reverse := by simp
  rw [h]
  simp

theorem namedSegments_eq (path q : GoString) (hw : withSlash path = .ok (q ++ [47])) :
    namedSegments path = Split q := by
  unfold namedSegments
  rw [hw]
  simp only
  rw [Split_append_slash, List.dropLast_concat]

/-- C4, amended: for every input path the normalization returns a path, and that
path has no segment `..` exactly when the segments of the input (closing `'/'`
ensured, the empty segment after it aside) have none once a final `..` is taken
away together with the segment before it. -/
theorem normalizePath_no_dotdot (path : GoString) :
    ∃ q, normalizePath path = .ok q ∧
      (dotdot ∉ Split q ↔ dotdot ∉ withoutFinalHop (namedSegments path)) := by
  obtain ⟨q0, hw, _⟩ := withSlash_spec path
  rw [normalizePath_eq path q0 hw, namedSegments_eq path q0 hw]
  have hnil : ([] : GoString) ≠ dotdot := by decide
  rcases List.eq_nil_or_concat (Split q0) with h0 | ⟨ys, l, hx⟩
  · exact absurd h0 (Split_ne_nil q0)
  · rw [List.concat_eq_append] at hx
    rcases List.eq_nil_or_concat ys with rfl | ⟨zs, a, hy⟩
    · -- a single segment before the closing slash
      have hx1 : Split q0 = [l] := by rw [hx]; rfl
      have hsp : Split (q0 ++ [47]) = [l, []] := by rw [Split_append_slash, hx1]; rfl
      refine ⟨q0 ++ [47], stripParent_short _ (by rw [hsp]; simp), ?_⟩
      rw [hsp, hx1, withoutFinalHop_single]
      simp only [List.mem_cons, List.mem_singleton, List.not_mem_nil, or_false, not_or]
      constructor
      · intro h; exact h.1
      · intro h; exact ⟨h, fun e => hnil e.symm⟩
    · rw [List.concat_eq_append] at hy
      subst hy
      have hx2 : Split q0 = zs ++ [a, l] := by rw [hx]; simp
      have hsp : Split (q0 ++ [47]) = zs ++ [a, l, []] := by
        rw [Split_append_slash, hx2]; simp
      rw [stripParent_long _ zs a l [] hsp, hx2, withoutFinalHop_long]
      by_cases hl : l = dotdot
      · rw [if_pos hl, if_pos hl]
        refine ⟨_, rfl, ?_⟩
        rw [Split_append_slash]
        cases hz : zs with
        | nil =>
          constructor
          · intro _; simp
          · intro _; decide
        | cons z zs2 =>
          rw [← hz, Split_Join zs (by rw [hz]; simp)
            (fun s hs => Split_noslash q0 s (by rw [hx2]; simp [hs]))]
          simp only [List.mem_append, List.mem_singleton, not_or]
          constructor
          · intro h; exact h.1
          · intro h; exact ⟨h, fun e => hnil e.symm⟩
      · rw [if_neg hl, if_neg hl]
        refine ⟨_, rfl, ?_⟩
        rw [hsp]
        simp only [List.mem_append, List.mem_cons, List.mem_singleton, List.not_mem_nil,
          or_false, not_or]
        constructor
        · intro h; exact ⟨h.1, h.2.1, h.2.2.1⟩
        · intro h; exact ⟨h.1, h.2.1, h.2.2, fun e => hnil e.symm⟩

/-- C4, amended, at five inputs: the back link `/a/b/..`, the relative `a/..` and
the double `/a/b/../..` are normalized to paths without `..`; `/../x` and `..`
keep theirs. -/
theorem normalizePath_no_dotdot_witness :
    (∃ q, normalizePath (ascii "/a/b/..") = .ok q ∧ dotdot ∉ Split q) ∧
    (∃ q, normalizePath (ascii "a/..") = .ok q ∧ dotdot ∉ Split q) ∧
    (∃ q, normalizePath (ascii "/a/b/../..") = .ok q ∧ dotdot ∉ Split q) ∧
    (∃ q, normalizePath (ascii "/../x") = .ok q ∧ ¬ dotdot ∉ Split q) ∧
    (∃ q, normalizePath (ascii "..") = .ok q ∧ ¬ dotdot ∉ Split q) :=
  ⟨match normalizePath_no_dotdot (ascii "/a/b/..") with
    | ⟨q, hq, hiff⟩ => ⟨q, hq, hiff.mpr (by decide)⟩,
   match normalizePath_no_dotdot (ascii "a/..") with
    | ⟨q, hq, hiff⟩ => ⟨q, hq, hiff.mpr (by decide)⟩,
   match normalizePath_no_dotdot (ascii "/a/b/../..") with
    | ⟨q, hq, hiff⟩ => ⟨q, hq, hiff.mpr (by decide)⟩,
   match normalizePath_no_dotdot (ascii "/../x") with
    | ⟨q, hq, hiff⟩ => ⟨q, hq, fun h => absurd (hiff.mp h) (by decide)⟩,
   match normalizePath_no_dotdot (ascii "..") with
    | ⟨q, hq, hiff⟩ => ⟨q, hq, fun h => absurd (hiff.mp h) (by decide)⟩⟩

/-- C6 fails as stated: the input `/a/b/../` is not normalized to `/`. -/
theorem normalizePath_single_hop_counterexample :
    normalizePath (ascii "/a/b/../") ≠ .ok (ascii "/") := by
  decide

/-- C6, amended: the input `/a/b/../` is normalized to `/a/`, the parent of
`/a/b/`. -/
theorem normalizePath_single_hop :
    normalizePath (ascii "/a/b/../") = .ok (ascii "/a/") := by
  decide


/-! ## Shape and totality of the normalisation -/

theorem stripParent_total (p : GoString) :
    ∃ q, stripParent p = .ok (q ++ [47]) ∨ stripParent p = .ok p := by
  by_cases h : (Split p).length ≤ 2
  · exact ⟨[], Or.inr (stripParent_short p h)⟩
  · have h3 : 3 ≤ (Split p).length := by omega
    obtain ⟨zs, a, l, e, hz⟩ : ∃ zs a l e, Split p = zs ++ [a, l, e] := by
      rcases List.eq_nil_or_concat (Split p) with h0 | ⟨x1, e, h1⟩
      · rw [h0] at h3; simp at h3
      · rw [List.concat_eq_append] at h1
        rcases List.eq_nil_or_concat x1 with h0 | ⟨x2, l, h2⟩
        · rw [h0] at h1; rw [h1] at h3; simp at h3
        · rw [List.concat_eq_append] at h2
          rcases List.eq_nil_or_concat x2 with h0 | ⟨zs, a, h4⟩
          · rw [h0] at h2; rw [h2] at h1; rw [h1] at h3; simp at h3
          · rw [List.concat_eq_append] at h4
            exact ⟨zs, a, l, e, by rw [h1, h2, h4]; simp⟩
    rw [stripParent_long p zs a l e hz]
    by_cases hl : l = dotdot
    · exact ⟨Join zs, Or.inl (by rw [if_pos hl])⟩
    · exact ⟨[], Or.inr (by rw [if_neg hl])⟩

theorem normalizePath_slash (path : GoString) :
    ∃ q, normalizePath path = .ok (q ++ [47]) := by
  obtain ⟨q0, hw, _⟩ := withSlash_spec path
  rw [normalizePath_eq path q0 hw]
  obtain ⟨q, h | h⟩ := stripParent_total (q0 ++ [47])
  · exact ⟨q, h⟩
  · exact ⟨q0, h⟩

/-- C11: for every input path the normalization returns a path, the returned
path is not empty and its last byte is `'/'`, and the empty input is normalized
to `/`. -/
theorem normalizePath_shape (path : GoString) :
    (∃ p, normalizePath path = .ok p ∧ p ≠ [] ∧ p.getLast? = some 47) ∧
    normalizePath [] = .ok (ascii "/") := by
  refine ⟨?_, by decide⟩
  obtain ⟨q, hq⟩ := normalizePath_slash path
  exact ⟨q ++ [47], hq, by simp, by simp⟩

/-- C20: for every input path each checked access of the normalization is in
range: the read of `path[len(path)-1]` in the first step succeeds, the index
`paths[len(paths)-2]` and the slice `paths[:len(paths)-3]` of the second step
succeed on every path, and a normalized path is returned. -/
theorem normalizePath_total (path : GoString) :
    (∃ p, withSlash path = .ok p) ∧ (∀ p, ∃ q, stripParent p = .ok q) ∧
    (∃ q, normalizePath path = .ok q) := by
  refine ⟨?_, ?_, ?_⟩
  · obtain ⟨q0, hw, _⟩ := withSlash_spec path
    exact ⟨_, hw⟩
  · intro p
    obtain ⟨q, h | h⟩ := stripParent_total p
    · exact ⟨_, h⟩
    · exact ⟨_, h⟩
  · obtain ⟨q, hq⟩ := normalizePath_slash path
    exact ⟨_, hq⟩

/-! ## Size labels at the sizes of the specification -/

/-- C13: the labels of files of 512, 1536, 1572864 and `2^30` bytes are `[512B]`,
`[1.50KB]`, `[1.50MB]` and `[1.00G]`. -/
theorem sizeLabel_examples :
    (newFile sampleConfig (ascii "/") (DirEntry.mk (ascii "f") false (some 512))).map
      File.Size = .ok (ascii "[512B]") ∧
    (newFile sampleConfig (ascii "/") (DirEntry.mk (ascii "f") false (some 1536))).map
      File.Size = .ok (ascii "[1.50KB]") ∧
    (newFile sampleConfig (ascii "/") (DirEntry.mk (ascii "f") false (some 1572864))).map
      File.Size = .ok (ascii "[1.50MB]") ∧
    (newFile sampleConfig (ascii "/") (DirEntry.mk (ascii "f") false (some (2 ^ 30)))).map
      File.Size = .ok (ascii "[1.00G]") ∧
    sizeLabel 512 = ascii "[512B]" ∧ sizeLabel 1536 = ascii "[1.50KB]" ∧
    sizeLabel 1572864 = ascii "[1.50MB]" ∧ sizeLabel (2 ^ 30) = ascii "[1.00G]" := by
  decide

/-! ## The comparison function is a strict weak ordering -/

/-- C19: the function `less` handed to the sort is irreflexive and transitive,
and being incomparable (neither less than the other) is transitive. -/
theorem less_valid_comparator :
    (∀ a : File, less a a = false) ∧
    (∀ a b c : File, less a b = true → less b c = true → less a c = true) ∧
    (∀ a b c : File, (less a b = false ∧ less b a = false) →
      (less b c = false ∧ less c b = false) → (less a c = false ∧ less c a = false)) := by
  refine ⟨less_irrefl, less_trans, ?_⟩
  intro a b c h1 h2
  obtain ⟨t1, k1⟩ := less_incomp a b h1.1 h1.2
  obtain ⟨t2, k2⟩ := less_incomp b c h2.1 h2.2
  exact ⟨less_of_incomp a c (t1.trans t2) (k1.trans k2),
    less_of_incomp c a (t1.trans t2).symm (k1.trans k2).symm⟩

/-- C19, on three sample entries: a directory is less than the file `a9.txt`,
that file is less than `a10.txt`, hence the directory is less than `a10.txt`. -/
theorem less_valid_comparator_witness :
    less sampleDirEntry sampleFile9 = true ∧ less sampleFile9 sampleFile10 = true ∧
    less sampleDirEntry sampleFile10 = true :=
  ⟨by decide, by decide,
   less_valid_comparator.2.1 sampleDirEntry sampleFile9 sampleFile10 (by decide) (by decide)⟩

/-! ## Overflow of the digit run -/

theorem Ext_remove_digits (f : GoString) : Ext (namePrefix f ++ Ext f) = Ext f := by
  rcases Ext_spec f with h | ⟨b, t, _, h2, h3⟩
  · rw [h, List.append_nil]
    have hf : namePrefix f ++ numericSuffix f = f := by
      have := split_append f
      rw [h] at this
      simpa using this
    have hE : Ext (namePrefix f ++ numericSuffix f) = [] := by rw [hf]; exact h
    unfold Ext at hE ⊢
    rw [List.reverse_append,
      extFrom_digits _ _ _ (fun c hc => numericSuffix_digits f c (List.mem_reverse.mp hc))] at hE
    exact extFrom_nil_acc _ _ _ hE
  · rw [h3]
    exact Ext_append_ext _ t h2

theorem sortName_without_digits (f : GoString) :
    sortName (namePrefix f ++ Ext f) = namePrefix f ++ zeroField ++ Ext f := by
  have hE : Ext (namePrefix f ++ [] ++ Ext f) = Ext f := by
    rw [List.append_nil]; exact Ext_remove_digits f
  obtain ⟨hp, hs⟩ := split_of_parts (namePrefix f) [] (Ext f) (by simp)
    (digitRun_namePrefix f) hE
  rw [List.append_nil] at hp hs hE
  unfold sortName
  rw [hp, hE, numericField_of_empty _ hs]

theorem numericField_of_overflow (f : GoString)
    (h : 2 ^ 64 ≤ digitsValue (numericSuffix f)) : numericField f = zeroField := by
  have hne : numericSuffix f ≠ [] := by
    intro h0
    rw [h0] at h
    simp [digitsValue] at h
  unfold numericField
  have hlen : (numericSuffix f).length > 0 := List.length_pos.mpr hne
  simp only [hlen, if_true]
  rw [ParseUint_eq _ (numericSuffix_digits f) hne, if_neg (by omega)]

/-- C14: for a file name whose trailing digit run has a value of `2^64` or more,
`sortName` returns the prefix, eight zero bytes and the extension, which is also
the key of the name with the digit run removed. -/
theorem sortName_overflow (f : GoString) (h : 2 ^ 64 ≤ digitsValue (numericSuffix f)) :
    sortName f = namePrefix f ++ zeroField ++ Ext f ∧
    sortName f = sortName (namePrefix f ++ Ext f) := by
  have h1 : sortName f = namePrefix f ++ zeroField ++ Ext f := by
    unfold sortName
    rw [numericField_of_overflow f h]
  exact ⟨h1, by rw [h1, sortName_without_digits]⟩

/-- C14, at `a18446744073709551616.txt`, whose digit run has the value `2^64`:
the key is that of `a.txt`. -/
theorem sortName_overflow_witness :
    digitsValue (numericSuffix (ascii "a18446744073709551616.txt")) = 2 ^ 64 ∧
    sortName (ascii "a18446744073709551616.txt") = ascii "a" ++ zeroField ++ ascii ".txt" ∧
    sortName (ascii "a18446744073709551616.txt") = sortName (ascii "a.txt") :=
  ⟨by decide, sortName_overflow (ascii "a18446744073709551616.txt") (by decide)⟩

/-! ## The back link -/

theorem Join_append_slash (xs : List GoString) (hne : xs ≠ []) :
    Join xs ++ [47] = (xs.map (fun s => s ++ [47])).flatten := by
  induction xs with
  | nil => exact absurd rfl hne
  | cons a rest ih =>
    cases rest with
    | nil => simp [Join]
    | cons b rest2 =>
      have := ih (by simp)
      simp only [Join, List.map_cons, List.flatten_cons, List.append_assoc,
        List.cons_append] at this ⊢
      rw [this]
      simp

theorem Join_concat (xs : List GoString) (y : GoString) (hne : xs ≠ []) :
    Join (xs ++ [y]) = Join xs ++ 47 :: y := by
  induction xs with
  | nil => exact absurd rfl hne
  | cons a rest ih =>
    cases rest with
    | nil => simp [Join]
    | cons b rest2 =>
      have e : ∀ (u v : GoString) (w : List GoString),
          Join (u :: v :: w) = u ++ 47 :: Join (v :: w) := fun _ _ _ => rfl
      have ih2 : Join (b :: (rest2 ++ [y])) = Join (b :: rest2) ++ 47 :: y := ih (by simp)
      show Join (a :: b :: (rest2 ++ [y])) = Join (a :: b :: rest2) ++ 47 :: y
      rw [e, e, ih2]
      simp

theorem dirPath_eq (segs : List GoString) : dirPath segs = Join ([] :: segs) ++ [47] := by
  rw [Join_append_slash _ (by simp)]
  simp [dirPath]

theorem backLink_eq (segs : List GoString) :
    dirPath segs ++ dotdot = Join ([] :: segs ++ [dotdot]) := by
  rw [dirPath_eq, Join_concat ([] :: segs) dotdot (by simp)]
  simp

theorem withSlash_backLink (segs : List GoString) :
    withSlash (dirPath segs ++ dotdot) = .ok (dirPath segs ++ dotdot ++ [47]) := by
  obtain ⟨q, hw, hq | hq⟩ := withSlash_spec (dirPath segs ++ dotdot)
  · rw [hw, hq]
  · exfalso
    have h1 := congrArg List.getLast? hq
    simp [dotdot] at h1

theorem dropLast_cons_of_ne_nil {α : Type} (x : α) (l : List α) (h : l ≠ []) :
    (x :: l).dropLast = x :: l.dropLast := by
  cases l with
  | nil => exact absurd rfl h
  | cons y ys => rfl

/-- C17: for segments without `'/'`, the back link of the directory
`/s1/.../sn/`, which is that path followed by `..`, is normalized to
`/s1/.../s(n-1)/`; for at most one segment this is `/`. -/
theorem normalizePath_backLink (segs : List GoString) (h : ∀ s ∈ segs, 47 ∉ s) :
    normalizePath (dirPath segs ++ dotdot) = .ok (dirPath segs.dropLast) ∧
    (segs.length ≤ 1 → normalizePath (dirPath segs ++ dotdot) = .ok (ascii "/")) := by
  have hmain : normalizePath (dirPath segs ++ dotdot) = .ok (dirPath segs.dropLast) := by
    rw [normalizePath_eq _ _ (withSlash_backLink segs)]
    have hfree : ∀ s ∈ [] :: segs ++ [dotdot], 47 ∉ s := by
      intro s hs
      simp only [List.cons_append, List.mem_cons, List.mem_append, List.mem_singleton,
        List.not_mem_nil, or_false] at hs
      rcases hs with rfl | hs | rfl
      · simp
      · exact h s hs
      · decide
    have hsplit : Split (dirPath segs ++ dotdot ++ [47]) = [] :: segs ++ [dotdot] ++ [[]] := by
      rw [Split_append_slash, backLink_eq, Split_Join _ (by simp) hfree]
    rcases List.eq_nil_or_concat segs with h0 | ⟨init, l, hl⟩
    · subst h0
      have h3 : Split (dirPath [] ++ dotdot ++ [47]) = [] ++ [[], dotdot, []] := by
        rw [hsplit]; rfl
      rw [stripParent_long _ [] [] dotdot [] h3, if_pos rfl]
      rfl
    · rw [List.concat_eq_append] at hl
      subst hl
      have h3 : Split (dirPath (init ++ [l]) ++ dotdot ++ [47]) =
          ([] :: init) ++ [l, dotdot, []] := by
        rw [hsplit]; simp
      rw [stripParent_long _ ([] :: init) l dotdot [] h3, if_pos rfl, List.dropLast_concat,
        dirPath_eq]
  refine ⟨hmain, ?_⟩
  intro hlen
  rw [hmain]
  match segs, hlen with
  | [], _ => rfl
  | [_], _ => rfl

/-- C17, at the directory `/a/b/`: its back link `/a/b/..` is normalized to
`/a/`, and the back link `/..` of the root to `/`. -/
theorem normalizePath_backLink_witness :
    normalizePath (ascii "/a/b/..") = .ok (ascii "/a/") ∧
    normalizePath (ascii "/..") = .ok (ascii "/") :=
  ⟨(normalizePath_backLink [ascii "a", ascii "b"] (by decide)).1,
   (normalizePath_backLink [] (by decide)).2 (by decide)⟩

/-! ## Failure of the directory read and of `Info()` -/

/-- When `os.ReadDir` returns an error, `QueryFiles` panics with that error,
whatever entries came with it, and so returns no list. -/
theorem QueryFiles_read_error
    (sortSlice : (File → File → Bool) → List File → List File)
    (ReadDir : GoString → List DirEntry × Option GoString) (cfg : Config) (path : GoString)
    (files : List DirEntry) (err : GoString)
    (hread : ReadDir (cfg.base_path ++ path) = (files, some err)) :
    QueryFiles sortSlice ReadDir cfg path = .error (.readDir err) ∧
    ∀ out, QueryFiles sortSlice ReadDir cfg path ≠ .ok out := by
  have h1 : QueryFiles sortSlice ReadDir cfg path = .error (.readDir err) := by
    unfold QueryFiles
    rw [hread]
  refine ⟨h1, ?_⟩
  intro out hout
  rw [h1] at hout
  exact Except.noConfusion hout

/-- C16: on a directory that is read without error and holds the file `gone.txt`
on which `Info()` fails, `QueryFiles` returns no list, whatever the sort: the
nil `info` is dereferenced and the program panics. -/
theorem QueryFiles_Info_failure_panics :
    infoFailReadDir (sampleConfig.base_path ++ ascii "/") =
      ([DirEntry.mk (ascii "gone.txt") false none,
        DirEntry.mk (ascii "notes") true (some 4096)], none) ∧
    ∀ sortSlice : (File → File → Bool) → List File → List File,
      QueryFiles sortSlice infoFailReadDir sampleConfig (ascii "/") = .error .nilDereference ∧
      ∀ out, QueryFiles sortSlice infoFailReadDir sampleConfig (ascii "/") ≠ .ok out := by
  refine ⟨rfl, ?_⟩
  intro sortSlice
  have h1 : QueryFiles sortSlice infoFailReadDir sampleConfig (ascii "/")
      = .error .nilDereference := rfl
  refine ⟨h1, ?_⟩
  intro out hout
  rw [h1] at hout
  exact Except.noConfusion hout

/-! ## The structure of the key -/

theorem lastDotSuffix_nodot (t : GoString) (h : 46 ∉ t) : lastDotSuffix t = [] := by
  induction t with
  | nil => rfl
  | cons c cs ih =>
    have hc : ¬ c = 46 := fun e => h (by simp [e])
    have hcs : 46 ∉ cs := fun e => h (List.mem_cons_of_mem _ e)
    simp [lastDotSuffix, ih hcs, hc]

theorem lastDotSuffix_append (b t : GoString) (h : 46 ∉ t) :
    lastDotSuffix (b ++ 46 :: t) = 46 :: t := by
  induction b with
  | nil => simp [lastDotSuffix, lastDotSuffix_nodot t h]
  | cons c cs ih =>
    rw [List.cons_append]
    unfold lastDotSuffix
    rw [ih]

theorem extFrom_nil_nodot (r : List Nat) (acc : GoString) (h47 : 47 ∉ r)
    (h : extFrom r acc = []) : 46 ∉ r := by
  induction r generalizing acc with
  | nil => simp
  | cons c cs ih =>
    have hc : ¬ c = 47 := fun e => h47 (by simp [e])
    have hcs : 47 ∉ cs := fun e => h47 (List.mem_cons_of_mem _ e)
    simp only [extFrom, if_neg hc] at h
    by_cases h46 : c = 46
    · rw [if_pos h46] at h
      exact absurd h (by simp)
    · rw [if_neg h46] at h
      intro hmem
      rcases List.mem_cons.mp hmem with e | hmem
      · exact h46 e.symm
      · exact ih _ hcs h hmem

theorem Ext_eq_lastDotSuffix (f : GoString) (h : 47 ∉ f) : Ext f = lastDotSuffix f := by
  rcases Ext_spec f with h0 | ⟨b, t, h1, h2, h3⟩
  · have hnd : 46 ∉ f := by
      have := extFrom_nil_nodot f.reverse [] (fun e => h (List.mem_reverse.mp e)) h0
      exact fun e => this (List.mem_reverse.mpr e)
    rw [h0, lastDotSuffix_nodot f hnd]
  · rw [h3]
    conv_rhs => rw [h1]
    rw [lastDotSuffix_append b t (fun e => (h2 46 e).1 rfl)]

theorem drop_digitRun (r : List Nat) :
    r.drop (digitRun r) = r.dropWhile (fun c => decide (48 ≤ c ∧ c ≤ 57)) := by
  induction r with
  | nil => rfl
  | cons c cs ih =>
    by_cases h : 48 > c ∨ c > 57
    · have h2 : ¬ (48 ≤ c ∧ c ≤ 57) := by omega
      simp [digitRun, h, List.dropWhile_cons, h2]
    · have h2 : 48 ≤ c ∧ c ≤ 57 := by omega
      simp only [digitRun, if_neg h, List.drop_succ_cons, ih, List.dropWhile_cons]
      simp [h2]

theorem namePrefix_eq_strip (f : GoString) :
    namePrefix f = stripTrailingDigits (baseName f) := by
  rw [namePrefix_eq, drop_digitRun]
  rfl

theorem namePrefix_no_trailing_digit (f : GoString) (c : Nat)
    (h : (namePrefix f).getLast? = some c) : ¬ (48 ≤ c ∧ c ≤ 57) := by
  have h0 := digitRun_namePrefix f
  rw [List.getLast?_eq_head?_reverse] at h
  cases hr : (namePrefix f).reverse with
  | nil => rw [hr] at h; simp at h
  | cons x xs =>
    rw [hr] at h h0
    simp only [List.head?_cons, Option.some.injEq] at h
    subst h
    simp only [digitRun] at h0
    split_ifs at h0 with hx
    · omega

/-- C15: for a file name without `'/'`, with `e` the suffix starting at its last
`'.'` (empty without one), `name` the rest and `p` the `name` without its
maximal trailing digit run: `p` does not end in a digit, `sortName` returns `p`,
an 8-byte field and `e`, the field is all zero when the digit run is empty, and
the key has length `len(p) + 8 + len(e)`. -/
theorem sortName_key_structure (f : GoString) (h : 47 ∉ f) :
    Ext f = lastDotSuffix f ∧
    baseName f = f.take (f.length - (lastDotSuffix f).length) ∧
    namePrefix f = stripTrailingDigits (f.take (f.length - (lastDotSuffix f).length)) ∧
    (∀ c, (stripTrailingDigits (f.take (f.length - (lastDotSuffix f).length))).getLast?
      = some c → ¬ (48 ≤ c ∧ c ≤ 57)) ∧
    (∃ field : GoString, field.length = 8 ∧
      sortName f = stripTrailingDigits (f.take (f.length - (lastDotSuffix f).length))
        ++ field ++ lastDotSuffix f ∧
      (stripTrailingDigits (f.take (f.length - (lastDotSuffix f).length))
        = f.take (f.length - (lastDotSuffix f).length) → field = zeroField)) ∧
    (sortName f).length =
      (stripTrailingDigits (f.take (f.length - (lastDotSuffix f).length))).length + 8
        + (lastDotSuffix f).length := by
  have hE := Ext_eq_lastDotSuffix f h
  have hB : baseName f = f.take (f.length - (lastDotSuffix f).length) := by
    unfold baseName
    rw [hE]
  have hP : namePrefix f = stripTrailingDigits (f.take (f.length - (lastDotSuffix f).length)) := by
    rw [namePrefix_eq_strip, hB]
  refine ⟨hE, hB, hP, ?_, ⟨numericField f, numericField_length f, ?_, ?_⟩, ?_⟩
  · intro c hc
    rw [← hP] at hc
    exact namePrefix_no_trailing_digit f c hc
  · rw [← hP, ← hE]
    rfl
  · intro heq
    rw [← hP, ← hB] at heq
    have h2 := namePrefix_append_numericSuffix f
    rw [heq] at h2
    exact numericField_of_empty f (List.append_right_eq_self.mp h2)
  · rw [← hP, ← hE]
    unfold sortName
    rw [List.length_append, List.length_append, numericField_length]

/-- C15, at `archive.tar.gz` and `img2.png`: the extensions are `.gz` and `.png`,
the prefixes `archive.tar` and `img`, and the keys have the lengths 22 and 15. -/
theorem sortName_key_structure_witness :
    Ext (ascii "archive.tar.gz") = ascii ".gz" ∧
    namePrefix (ascii "archive.tar.gz") = ascii "archive.tar" ∧
    lastDotSuffix (ascii "img2.png") = ascii ".png" ∧
    stripTrailingDigits (ascii "img2") = ascii "img" ∧
    (sortName (ascii "archive.tar.gz")).length = 11 + 8 + 3 ∧
    (sortName (ascii "img2.png")).length =
      (stripTrailingDigits ((ascii "img2.png").take
        ((ascii "img2.png").length - (lastDotSuffix (ascii "img2.png")).length))).length + 8
        + (lastDotSuffix (ascii "img2.png")).length :=
  ⟨by decide, by decide, by decide, by decide, by decide,
   (sortName_key_structure (ascii "img2.png") (by decide)).2.2.2.2.2⟩

/-! ## The size label -/

theorem toFloat64_small (n : Nat) (h : n < 2 ^ 53) : toFloat64 n = n := by
  have h0 : lostBits 11 n = 0 := by
    show (if n < 2 ^ 53 then 0 else lostBits 10 (n / 2) + 1) = 0
    rw [if_pos h]
  have h1 : n % 1 = 0 := Nat.mod_one n
  simp only [toFloat64, h0, Nat.pow_zero, h1, Nat.div_one, Nat.mul_one, Nat.mul_zero]
  rw [if_neg (by omega)]

theorem roundHalfEven_isRounding (m k : Nat) :
    isRounding (if 2 * (m * 100 % 2 ^ k) > 2 ^ k ∨
        (2 * (m * 100 % 2 ^ k) = 2 ^ k ∧ m * 100 / 2 ^ k % 2 = 1)
      then m * 100 / 2 ^ k + 1 else m * 100 / 2 ^ k) m k := by
  unfold isRounding
  have hD : 0 < 2 ^ k := Nat.pos_of_ne_zero (by positivity)
  generalize 2 ^ k = D at *
  have hdm := Nat.div_add_mod (m * 100) D
  have hr := Nat.mod_lt (m * 100) hD
  generalize m * 100 / D = q at *
  generalize m * 100 % D = r at *
  split_ifs with hc
  · have e : (q + 1) * D = D * q + D := by ring
    rw [e]
    generalize D * q = X at *
    omega
  · have e : q * D = D * q := Nat.mul_comm _ _
    rw [e]
    generalize D * q = X at *
    omega

theorem fmtFixed2_rounding (m k : Nat) :
    ∃ h, isRounding h m k ∧ fmtFixed2 m k = hundredths h :=
  ⟨_, roundHalfEven_isRounding m k, rfl⟩

/-- C12 fails as stated: a file of `2^30` bytes is labelled `[1.00G]`, not
`[1.00GB]`; and a file of 9007199270847119 bytes, a size that `float64` cannot
hold, is labelled `[8388608.02G]` although the exact quotient by `2^30` rounds to
8388608.01. -/
theorem sizeLabel_rule_counterexample :
    (sizeLabel (2 ^ 30) = ascii "[1.00G]" ∧ sizeLabel (2 ^ 30) ≠ ascii "[1.00GB]") ∧
    (sizeLabel 9007199270847119 = ascii "[8388608.02G]" ∧
      ¬ isRounding 838860802 9007199270847119 30 ∧
      isRounding 838860801 9007199270847119 30) := by
  decide

theorem lostBits_spec (fuel n : Nat) (h : n < 2 ^ 53 * 2 ^ fuel) :
    lostBits fuel n = 0 ∧ n < 2 ^ 53 ∨
    0 < lostBits fuel n ∧ 2 ^ 53 * 2 ^ (lostBits fuel n - 1) ≤ n := by
  induction fuel generalizing n with
  | zero =>
    left
    exact ⟨rfl, by simpa using h⟩
  | succ k ih =>
    unfold lostBits
    by_cases h53 : n < 2 ^ 53
    · rw [if_pos h53]
      exact Or.inl ⟨rfl, h53⟩
    · rw [if_neg h53]
      right
      refine ⟨Nat.succ_pos _, ?_⟩
      have hk : 2 ^ (k + 1) = 2 * 2 ^ k := by rw [Nat.pow_succ, Nat.mul_comm]
      rw [hk] at h
      have h2 : n / 2 < 2 ^ 53 * 2 ^ k := by omega
      rw [Nat.add_sub_cancel]
      rcases ih (n / 2) h2 with ⟨e0, _⟩ | ⟨epos, hle⟩
      · rw [e0]
        simp only [Nat.pow_zero, Nat.mul_one]
        omega
      · have he : 2 ^ lostBits k (n / 2) = 2 * 2 ^ (lostBits k (n / 2) - 1) := by
          rw [← Nat.pow_succ', Nat.succ_eq_add_one, Nat.sub_add_cancel epos]
        rw [he]
        generalize 2 ^ (lostBits k (n / 2) - 1) = E at *
        omega

/-- The conversion to `float64` moves a size below `2^64` by at most its
`2^53`-th part. -/
theorem toFloat64_near (n : Nat) (h : n < 2 ^ 64) :
    toFloat64 n ≤ n + n / 2 ^ 53 ∧ n ≤ toFloat64 n + n / 2 ^ 53 := by
  rcases lostBits_spec 11 n (by omega) with ⟨e0, hn⟩ | ⟨epos, hle⟩
  · rw [toFloat64_small n hn]
    omega
  · have hE : 2 ^ (lostBits 11 n - 1) ≤ n / 2 ^ 53 := by
      rw [Nat.le_div_iff_mul_le (by decide)]
      rw [Nat.mul_comm]
      exact hle
    have he : 2 ^ lostBits 11 n = 2 * 2 ^ (lostBits 11 n - 1) := by
      rw [← Nat.pow_succ', Nat.succ_eq_add_one, Nat.sub_add_cancel epos]
    have hEpos : 0 < 2 ^ (lostBits 11 n - 1) := Nat.pos_of_ne_zero (by positivity)
    unfold toFloat64
    simp only
    rw [he]
    generalize 2 ^ (lostBits 11 n - 1) = E at *
    generalize n / 2 ^ 53 = B at *
    have hdm := Nat.div_add_mod n (2 * E)
    have hr := Nat.mod_lt n (show 0 < 2 * E by omega)
    generalize n / (2 * E) = q at *
    generalize n % (2 * E) = r at *
    split_ifs with hc
    · have e : (q + 1) * (2 * E) = 2 * E * q + 2 * E := by ring
      rw [e]
      generalize 2 * E * q = X at *
      omega
    · have e : q * (2 * E) = 2 * E * q := Nat.mul_comm _ _
      rw [e]
      generalize 2 * E * q = X at *
      omega

/-- C12, amended: a size below `2^10` is labelled `[nB]` without decimals; a
size from `2^10` below `2^20` is labelled with `n / 2^10` rounded to two decimals
and `KB`; a size from `2^20` below `2^30` with `n / 2^20` rounded to two decimals
and `MB`; a size from `2^30` on is labelled `[`, the quotient of `float64(n)` by
`2^30` rounded to two decimals, and `G]`, where `float64(n)` is `n` below `2^53`
and differs from `n` by at most `n / 2^53` below `2^63`. -/
theorem sizeLabel_rule (n : Nat) :
    (n < 2 ^ 10 → sizeLabel n = ascii "[" ++ decimal n ++ ascii "B]") ∧
    (2 ^ 10 ≤ n → n < 2 ^ 20 →
      ∃ h, isRounding h n 10 ∧ sizeLabel n = ascii "[" ++ hundredths h ++ ascii "KB]") ∧
    (2 ^ 20 ≤ n → n < 2 ^ 30 →
      ∃ h, isRounding h n 20 ∧ sizeLabel n = ascii "[" ++ hundredths h ++ ascii "MB]") ∧
    (2 ^ 30 ≤ n →
      ∃ h, isRounding h (toFloat64 n) 30 ∧
        sizeLabel n = ascii "[" ++ hundredths h ++ ascii "G]") ∧
    (n < 2 ^ 53 → toFloat64 n = n) ∧
    (n < 2 ^ 63 → toFloat64 n ≤ n + n / 2 ^ 53 ∧ n ≤ toFloat64 n + n / 2 ^ 53) := by
  refine ⟨?_, ?_, ?_, ?_, toFloat64_small n, fun h => toFloat64_near n (by omega)⟩
  · intro h
    unfold sizeLabel
    rw [if_neg (by omega), if_neg (by omega), if_neg (by omega), toFloat64_small n (by omega)]
  · intro h1 h2
    obtain ⟨h, hr, hf⟩ := fmtFixed2_rounding n 10
    refine ⟨h, hr, ?_⟩
    unfold sizeLabel
    rw [if_neg (by omega), if_neg (by omega), if_pos (by omega), toFloat64_small n (by omega), hf]
  · intro h1 h2
    obtain ⟨h, hr, hf⟩ := fmtFixed2_rounding n 20
    refine ⟨h, hr, ?_⟩
    unfold sizeLabel
    rw [if_neg (by omega), if_pos (by omega), toFloat64_small n (by omega), hf]
  · intro h1
    obtain ⟨h, hr, hf⟩ := fmtFixed2_rounding (toFloat64 n) 30
    refine ⟨h, hr, ?_⟩
    unfold sizeLabel
    rw [if_pos (by omega), hf]

/-- C12, amended, at 1536 bytes and at `3 * 2^29` bytes: the labels are
`[1.50KB]` and `[1.50G]`, 150 hundredths being a rounding of `1536 / 2^10` and of
`3 * 2^29 / 2^30`. -/
theorem sizeLabel_rule_witness :
    (∃ h, isRounding h 1536 10 ∧ sizeLabel 1536 = ascii "[" ++ hundredths h ++ ascii "KB]") ∧
    (∃ h, isRounding h (toFloat64 (3 * 2 ^ 29)) 30 ∧
      sizeLabel (3 * 2 ^ 29) = ascii "[" ++ hundredths h ++ ascii "G]") ∧
    toFloat64 (3 * 2 ^ 29) = 3 * 2 ^ 29 ∧ sizeLabel (3 * 2 ^ 29) = ascii "[1.50G]" :=
  ⟨(sizeLabel_rule 1536).2.1 (by decide) (by decide),
   (sizeLabel_rule (3 * 2 ^ 29)).2.2.2.1 (by decide),
   (sizeLabel_rule (3 * 2 ^ 29)).2.2.2.2.1 (by decide), by decide⟩

/-! ## Which names share a key -/

theorem digitsValue_eq_ofDigits (d : GoString) :
    digitsValue d = Nat.ofDigits 10 ((d.map (fun c => c - 48)).reverse) := by
  unfold digitsValue
  induction d using List.reverseRecOn with
  | nil => rfl
  | append_singleton l a ih =>
    rw [List.foldl_append, List.map_append, List.reverse_append]
    simp only [List.foldl_cons, List.foldl_nil, List.map_cons, List.map_nil,
      List.reverse_cons, List.reverse_nil, List.nil_append, List.singleton_append,
      Nat.ofDigits_cons]
    rw [ih]
    omega

theorem map_sub_inj (d1 d2 : GoString) (h1 : ∀ c ∈ d1, 48 ≤ c ∧ c ≤ 57)
    (h2 : ∀ c ∈ d2, 48 ≤ c ∧ c ≤ 57)
    (h : d1.map (fun c => c - 48) = d2.map (fun c => c - 48)) : d1 = d2 := by
  induction d1 generalizing d2 with
  | nil =>
    cases d2 with
    | nil => rfl
    | cons y ys => simp at h
  | cons x xs ih =>
    cases d2 with
    | nil => simp at h
    | cons y ys =>
      simp only [List.map_cons, List.cons.injEq] at h
      have hx := h1 x (List.mem_cons_self _ _)
      have hy := h2 y (List.mem_cons_self _ _)
      have hxy : x = y := by omega
      rw [hxy, ih ys (fun c hc => h1 c (List.mem_cons_of_mem _ hc))
        (fun c hc => h2 c (List.mem_cons_of_mem _ hc)) h.2]

theorem digits_of_digitsValue (d : GoString) (hd : ∀ c ∈ d, 48 ≤ c ∧ c ≤ 57)
    (hne : d ≠ []) (hz : d.head? ≠ some 48) :
    Nat.digits 10 (digitsValue d) = (d.map (fun c => c - 48)).reverse := by
  rw [digitsValue_eq_ofDigits]
  apply Nat.digits_ofDigits 10 (by decide)
  · intro l hl
    rw [List.mem_reverse, List.mem_map] at hl
    obtain ⟨c, hc, rfl⟩ := hl
    have := hd c hc
    omega
  · intro hL
    cases d with
    | nil => exact absurd rfl hne
    | cons x xs =>
      have hx := hd x (List.mem_cons_self _ _)
      have hx48 : x ≠ 48 := by
        intro e
        exact hz (by simp [e])
      simp only [List.map_cons, List.reverse_cons, List.getLast_append_singleton] at hL ⊢
      omega

/-- Two non-empty digit runs without leading zero that have the same value are
the same run. -/
theorem digitsValue_inj (d1 d2 : GoString) (h1 : ∀ c ∈ d1, 48 ≤ c ∧ c ≤ 57)
    (h2 : ∀ c ∈ d2, 48 ≤ c ∧ c ≤ 57) (n1 : d1 ≠ []) (n2 : d2 ≠ [])
    (z1 : noLeadingZero d1) (z2 : noLeadingZero d2)
    (h : digitsValue d1 = digitsValue d2) : d1 = d2 := by
  have key : ∀ (a b : GoString), (∀ c ∈ b, 48 ≤ c ∧ c ≤ 57) → b ≠ [] →
      b.head? ≠ some 48 → a = [48] → digitsValue a = digitsValue b → False := by
    intro a b hb nb zb ha hab
    have hv : digitsValue a = 0 := by rw [ha]; rfl
    have := digits_of_digitsValue b hb nb zb
    rw [← hab, hv] at this
    simp only [Nat.digits_zero] at this
    have h3 := congrArg List.length this
    simp only [List.length_nil, List.length_reverse, List.length_map] at h3
    exact nb (List.length_eq_zero.mp h3.symm)
  rcases z1 with e1 | e1
  · rcases z2 with e2 | e2
    · rw [e1, e2]
    · exact (key d1 d2 h2 n2 e2 e1 h).elim
  · rcases z2 with e2 | e2
    · exact (key d2 d1 h1 n1 e1 e2 h.symm).elim
    · have a1 := digits_of_digitsValue d1 h1 n1 e1
      have a2 := digits_of_digitsValue d2 h2 n2 e2
      rw [h, a2] at a1
      exact (map_sub_inj d1 d2 h1 h2 (List.reverse_injective a1.symm))

theorem PutUint64_inj (n m : Nat) (hn : n < 2 ^ 64) (hm : m < 2 ^ 64)
    (h : PutUint64 n = PutUint64 m) : n = m := by
  rcases Nat.lt_trichotomy n m with hlt | heq | hgt
  · have := PutUint64_lt n m hlt hm
    rw [h, strLess_irrefl] at this
    exact absurd this (by simp)
  · exact heq
  · have := PutUint64_lt m n hgt hn
    rw [h, strLess_irrefl] at this
    exact absurd this (by simp)

theorem PutUint64_head_zero (n : Nat) (h : n < 2 ^ 56) :
    ∃ t : GoString, t.length = 7 ∧ PutUint64 n = 0 :: t := by
  have h0 : n / 2 ^ 56 % 256 = 0 := by omega
  refine ⟨[n / 2 ^ 48 % 256, n / 2 ^ 40 % 256, n / 2 ^ 32 % 256, n / 2 ^ 24 % 256,
    n / 2 ^ 16 % 256, n / 2 ^ 8 % 256, n % 256], rfl, ?_⟩
  unfold PutUint64
  rw [h0]

theorem append_zero_inj : ∀ (a b x y : GoString), 0 ∉ a → 0 ∉ b →
    a ++ 0 :: x = b ++ 0 :: y → a = b ∧ x = y
  | [], [], _, _, _, _, h => by simpa using h
  | [], c :: cs, _, _, _, hb, h => by
    simp only [List.nil_append, List.cons_append, List.cons.injEq] at h
    exact absurd (by simp [← h.1]) hb
  | c :: cs, [], _, _, ha, _, h => by
    simp only [List.nil_append, List.cons_append, List.cons.injEq] at h
    exact absurd (by simp [h.1]) ha
  | c :: cs, d :: ds, x, y, ha, hb, h => by
    simp only [List.cons_append, List.cons.injEq] at h
    obtain ⟨h1, h2⟩ := append_zero_inj cs ds x y
      (fun e => ha (List.mem_cons_of_mem _ e)) (fun e => hb (List.mem_cons_of_mem _ e)) h.2
    exact ⟨by rw [h.1, h1], h2⟩

/-- The numeric field of a name whose stored number stays below `2^56`. -/
theorem numericField_small (f : GoString) (hv : digitsValue (numericSuffix f) + 1 < 2 ^ 56) :
    ∃ m, m < 2 ^ 56 ∧ numericField f = PutUint64 m ∧
      (numericSuffix f = [] → m = 0) ∧
      (numericSuffix f ≠ [] → m = digitsValue (numericSuffix f) + 1) := by
  by_cases h : numericSuffix f = []
  · exact ⟨0, by decide, by rw [numericField_of_empty f h, PutUint64_zero],
      fun _ => rfl, fun h2 => absurd h h2⟩
  · exact ⟨_, hv, numericField_of_value f h (by omega), fun h2 => absurd h2 h, fun _ => rfl⟩

theorem mem_namePrefix (f : GoString) (c : Nat) (h : c ∈ namePrefix f) : c ∈ f := by
  rw [← split_append f]
  simp [h]

/-- C18 fails as stated: `a01` and `a1` differ, contain no `'/'` and have the
same key; so do `x4702111234474983744.txtabcd` and
`xAAAAAAAA3347432864288498531`, whose digit runs have no leading zero. -/
theorem sortName_injective_counterexample :
    (ascii "a01" ≠ ascii "a1" ∧ 47 ∉ ascii "a01" ∧ 47 ∉ ascii "a1" ∧
      sortName (ascii "a01") = sortName (ascii "a1")) ∧
    (ascii "x4702111234474983744.txtabcd" ≠ ascii "xAAAAAAAA3347432864288498531" ∧
      sortName (ascii "x4702111234474983744.txtabcd") =
        sortName (ascii "xAAAAAAAA3347432864288498531")) := by
  decide

/-- C18, amended: two file names without a zero byte, whose trailing digit runs
have no leading zero and a value plus one below `2^56`, and that have the same
key, are the same name. -/
theorem sortName_injective (f g : GoString) (hf0 : 0 ∉ f) (hg0 : 0 ∉ g)
    (hfz : noLeadingZero (numericSuffix f)) (hgz : noLeadingZero (numericSuffix g))
    (hfv : digitsValue (numericSuffix f) + 1 < 2 ^ 56)
    (hgv : digitsValue (numericSuffix g) + 1 < 2 ^ 56)
    (h : sortName f = sortName g) : f = g := by
  obtain ⟨mf, hmf, hNf, hf1, hf2⟩ := numericField_small f hfv
  obtain ⟨mg, hmg, hNg, hg1, hg2⟩ := numericField_small g hgv
  obtain ⟨tf, ltf, htf⟩ := PutUint64_head_zero mf hmf
  obtain ⟨tg, ltg, htg⟩ := PutUint64_head_zero mg hmg
  unfold sortName at h
  rw [hNf, hNg, htf, htg, List.append_assoc, List.append_assoc, List.cons_append,
    List.cons_append] at h
  obtain ⟨hp, hrest⟩ := append_zero_inj _ _ _ _
    (fun e => hf0 (mem_namePrefix f 0 e)) (fun e => hg0 (mem_namePrefix g 0 e)) h
  obtain ⟨ht, he⟩ := List.append_inj hrest (by rw [ltf, ltg])
  have hm : mf = mg := by
    apply PutUint64_inj mf mg (by omega) (by omega)
    rw [htf, htg, ht]
  have hd : numericSuffix f = numericSuffix g := by
    by_cases e1 : numericSuffix f = []
    · by_cases e2 : numericSuffix g = []
      · rw [e1, e2]
      · have := hf1 e1
        have := hg2 e2
        omega
    · by_cases e2 : numericSuffix g = []
      · have := hf2 e1
        have := hg1 e2
        omega
      · have a1 := hf2 e1
        have a2 := hg2 e2
        exact digitsValue_inj _ _ (numericSuffix_digits f) (numericSuffix_digits g) e1 e2
          hfz hgz (by omega)
  rw [← split_append f, ← split_append g, hp, hd, he]

/-- C18, amended, at `img2.png` and `img10.png`: the conditions hold of both
names; a name built in two ways has one key and is one name, and the keys of the
two names differ. -/
theorem sortName_injective_witness :
    ascii "img2.png" = ascii "img" ++ ascii "2.png" ∧
    sortName (ascii "img2.png") ≠ sortName (ascii "img10.png") :=
  ⟨sortName_injective (ascii "img2.png") (ascii "img" ++ ascii "2.png") (by decide)
      (by decide) (by decide) (by decide) (by decide) (by decide) (by decide),
   fun h => absurd
    (sortName_injective (ascii "img2.png") (ascii "img10.png") (by decide) (by decide)
      (by decide) (by decide) (by decide) (by decide) h)
    (by decide)⟩

end FilesInMyDevice
